import Mathlib

/-!
# Verification of the branch-flow graph builder (`scripts/analyze_python.py`)

Shallow embedding of the single-source-file analyzer.  The program walks a
Python syntax tree and produces an inventory (functions, classes, imports,
calls) plus a branch-flow graph (`branches`, `branchFlows`).

Modelling notes, in correspondence with the source:

* The Python `ast` node types are embedded as the inductives `PyExpr`,
  `PyStmt`, `PyBlock` (a statement list), `PyBlocks` (a list of statement
  lists, used for the bodies of `except` handlers of a `try`).  Only the
  fields the analyzer reads are carried.  `ast.AsyncFunctionDef`,
  `ast.AsyncFor` and `ast.AsyncWith` are handled by the analyzer exactly as
  their synchronous counterparts (`visit_AsyncFunctionDef = visit_FunctionDef`;
  the isinstance tuples include both), so a single constructor stands for each
  pair.
* `ast.get_source_segment` is external to the analyzer (it reads the raw
  source text); its per-node result is carried on each statement as the
  `Attrs.segment` field (`none` models a `None` return).  `_get_snippet`'s
  own logic (first line, 70-char truncation, falsy-empty check) is embedded
  in `getSnippet`.
* Python dicts/sets local to the collector (`_branch_counter`,
  `_branch_flow_keys`) are association/element lists; lookups find the most
  recent binding, matching dict update semantics.
* The inventory fields not consulted by any graph logic (`params`,
  `returnType`, `documentation`, `signature`, the `classes`, `imports` and
  `calls` arrays) are rendered by external helpers (`ast.unparse`,
  `ast.get_docstring`, `ast.dump`) and do not interact with the branch
  graph; the function records keep the fields the graph logic and the
  output contract depend on (`name`, `qualifiedName`, `start`, `end`).
* `f"{idx}"` renders a natural number in decimal, i.e. `Nat.repr`.
-/

namespace AnalyzePython

/-- Source attributes of a node: `lineno`, `end_lineno`, and the result of
`ast.get_source_segment(source, node)` (`none` when unavailable). -/
structure Attrs where
  lineno : Nat
  endLineno : Nat
  segment : Option String
deriving Repr

/-- Python expressions, restricted to the shapes `_known_truth_value`,
`_extract_stmt_call` and `_call_name` distinguish.  `constOther` covers
constants that are neither `bool` nor `None` (ints, strings, ...);
`unaryOther` covers unary operators other than `Not`; `other` covers every
remaining expression form (names are kept because `_call_name` reads them). -/
inductive PyExpr where
  | constBool (b : Bool)
  | constNone
  | constOther
  | name (id : String)
  | attribute (attr : String)
  | unaryNot (operand : PyExpr)
  | unaryOther (operand : PyExpr)
  | call (func : PyExpr)
  | await_ (value : PyExpr)
  | other
deriving Repr

mutual
/-- Python statements, restricted to the shapes the analyzer distinguishes.
`otherStmt` covers every statement the analyzer treats generically (pass,
imports, del, ...): no branch, no nested statement list, falls through. -/
inductive PyStmt where
  | functionDef (name : String) (body : PyBlock) (attrs : Attrs)
  | classDef (name : String) (body : PyBlock) (attrs : Attrs)
  | ifStmt (test : PyExpr) (body : PyBlock) (orelse : PyBlock) (attrs : Attrs)
  | ret (value : Option PyExpr) (attrs : Attrs)
  | raiseStmt (attrs : Attrs)
  | exprStmt (value : PyExpr) (attrs : Attrs)
  | assign (value : PyExpr) (attrs : Attrs)
  | annAssign (value : Option PyExpr) (attrs : Attrs)
  | augAssign (value : PyExpr) (attrs : Attrs)
  | forStmt (body : PyBlock) (orelse : PyBlock) (attrs : Attrs)
  | whileStmt (test : PyExpr) (body : PyBlock) (orelse : PyBlock) (attrs : Attrs)
  | tryStmt (body : PyBlock) (handlers : PyBlocks) (orelse : PyBlock)
      (finalbody : PyBlock) (attrs : Attrs)
  | withStmt (body : PyBlock) (attrs : Attrs)
  | otherStmt (attrs : Attrs)

/-- An ordered statement list (a block: a function body, an `if` arm, ...). -/
inductive PyBlock where
  | nil
  | cons (s : PyStmt) (rest : PyBlock)

/-- A list of blocks (the bodies of the `except` handlers of a `try`). -/
inductive PyBlocks where
  | nil
  | cons (b : PyBlock) (rest : PyBlocks)
end

/-- Build a `PyBlock` from a `List` (convenience for concrete programs). -/
def PyBlock.ofList : List PyStmt → PyBlock
  | [] => .nil
  | s :: rest => .cons s (PyBlock.ofList rest)

/-- Whether a block is empty (Python truthiness of the statement list). -/
def PyBlock.isNil : PyBlock → Bool
  | .nil => true
  | .cons _ _ => false

/-- `_known_truth_value`: resolve a condition's truth value when
syntactically obvious.  Literal `bool` constants resolve to themselves, the
literal `None` constant resolves to `false`, `not e` resolves to the negation
of the inner result when that is known; everything else is `none`
("unknown"). -/
def knownTruthValue : PyExpr → Option Bool
  | .constBool b => some b
  | .constNone => some false
  | .unaryNot operand =>
    match knownTruthValue operand with
    | none => none
    | some inner => some (!inner)
  | _ => none

mutual
/-- `_stmt_falls_through`: `return`/`raise` never fall through; an `if` falls
through iff its then-block falls through or its else-block falls through
(an absent else counts as falling through); everything else falls through. -/
def stmtFallsThrough : PyStmt → Bool
  | .ret _ _ => false
  | .raiseStmt _ => false
  | .ifStmt _ body orelse _ =>
    let thenFalls := blockFallsThrough body
    let elseFalls := if orelse.isNil then true else blockFallsThrough orelse
    thenFalls || elseFalls
  | _ => true

/-- `_block_falls_through`: walk the statements left to right, keeping the
path open while each statement falls through. -/
def blockFallsThrough : PyBlock → Bool
  | .nil => true
  | .cons s rest => stmtFallsThrough s && blockFallsThrough rest
end

/-- A `Branch` record, as placed in the output `branches` array by
`_add_branch` (the `callee` field is present only when truthy). -/
structure Branch where
  id : String
  kind : String
  owner : String
  idx : Nat
  start : Nat
  endLine : Nat
  snippet : String
  callee : Option String
deriving Repr, DecidableEq

/-- A `Flow` edge record, as placed in the output `branchFlows` array. -/
structure Flow where
  source : String
  target : String
  flowType : String
deriving Repr, DecidableEq

/-- The dedup key of a flow edge. -/
def flowKey (e : Flow) : String × String × String := (e.source, e.target, e.flowType)

/-- A function inventory record (`visit_FunctionDef`); the graph logic and
the claims consult `name` and `qualifiedName`. -/
structure FunctionRec where
  name : String
  qualifiedName : String
  start : Nat
  endLine : Nat
deriving Repr, DecidableEq

/-- An exit anchor: a `(branchId, flowType)` pair awaiting a target. -/
abbrev ExitAnchor := String × String

/-- The mutable fields of the `Collector` the branch-graph logic touches. -/
structure CollectorState where
  functions : List FunctionRec
  branches : List Branch
  branchFlows : List Flow
  branchCounter : List (String × Nat)
  branchFlowKeys : List (String × String × String)
deriving Repr

/-- The collector's initial state (`__init__`). -/
def initialState : CollectorState := ⟨[], [], [], [], []⟩

/-- Current value of the per-`(owner, kind)` counter for a key. -/
def counterVal (st : CollectorState) (key : String) : Nat :=
  (st.branchCounter.lookup key).getD 0

/-- `_next_branch_idx`: read the counter at `owner::kind` (default 0) and
post-increment it. -/
def nextBranchIdx (owner kind : String) (st : CollectorState) : Nat × CollectorState :=
  let key := owner ++ "::" ++ kind
  let idx := counterVal st key
  (idx, { st with branchCounter := (key, idx + 1) :: st.branchCounter })

/-- `_add_flow`: drop the edge when its `(source, target, flowType)` key is
already in the running set, otherwise record key and edge. -/
def addFlow (source target flowType : String) (st : CollectorState) : CollectorState :=
  let key := (source, target, flowType)
  if key ∈ st.branchFlowKeys then st
  else
    { st with
      branchFlowKeys := key :: st.branchFlowKeys
      branchFlows := st.branchFlows ++ [⟨source, target, flowType⟩] }

/-- The id format of `_add_branch`: `f"{owner}::{kind}#{idx}"`. -/
def mkBranchId (owner kind : String) (idx : Nat) : String :=
  owner ++ "::" ++ kind ++ "#" ++ Nat.repr idx

/-- The branch payload `_add_branch` appends, at a given counter index
(the `callee` key only for a truthy argument). -/
def mkBranch (owner kind : String) (node : Attrs) (snippet : String)
    (callee : Option String) (idx : Nat) : Branch :=
  ⟨mkBranchId owner kind idx, kind, owner, idx, node.lineno, node.endLineno, snippet,
   match callee with
   | some cc => if cc = "" then none else some cc
   | none => none⟩

/-- `_add_branch`: allocate the next index for `(owner, kind)`, format the
id, and append the branch payload (the `callee` key is included only when
the argument is truthy, i.e. neither `None` nor the empty string). -/
def addBranch (owner kind : String) (node : Attrs) (snippet : String)
    (callee : Option String) (st : CollectorState) : String × CollectorState :=
  let (idx, st) := nextBranchIdx owner kind st
  let branchId := mkBranchId owner kind idx
  let calleeField : Option String :=
    match callee with
    | some c => if c = "" then none else some c
    | none => none
  (branchId,
    { st with
      branches := st.branches ++
        [⟨branchId, kind, owner, idx, node.lineno, node.endLineno, snippet, calleeField⟩] })

/-- Python `s.split("\n")[0]`: the characters before the first newline. -/
def firstLine (s : String) : String := ⟨s.data.takeWhile (· ≠ '\n')⟩

/-- Python character slicing `s[:n]`. -/
def strTake (s : String) (n : Nat) : String := ⟨s.data.take n⟩

/-- Python `s.lstrip()`: drop leading whitespace. -/
def lstrip (s : String) : String := ⟨s.data.dropWhile Char.isWhitespace⟩

/-- Python `s.startswith(p)`. -/
def strStartsWith (s p : String) : Bool := p.data.isPrefixOf s.data

/-- `_get_snippet`: first line of the source segment, truncated to 70
characters (67 plus an ellipsis when longer); empty when the segment is
unavailable or empty (Python falsiness). -/
def getSnippet (a : Attrs) : String :=
  match a.segment with
  | none => ""
  | some seg =>
    if seg = "" then ""
    else
      let line := firstLine seg
      if line.length ≤ 70 then strTake line 70
      else strTake line 67 ++ "..."

/-- The `value` expression of an `Expr`/`Assign`/`AnnAssign`/`AugAssign`
statement (`None` when absent or for any other statement shape). -/
def extractValue : PyStmt → Option PyExpr
  | .exprStmt v _ => some v
  | .assign v _ => some v
  | .annAssign v _ => v
  | .augAssign v _ => some v
  | _ => none

/-- `_extract_stmt_call`: the `Call` node of a call-shaped statement,
unwrapping one `Await` layer. -/
def extractStmtCall (stmt : PyStmt) : Option PyExpr :=
  match extractValue stmt with
  | none => none
  | some v =>
    let v := match v with
      | .await_ inner => inner
      | w => w
    match v with
    | .call f => some (.call f)
    | _ => none

/-- `_call_name` applied to a `Call` node: the function name for a bare-name
call, the attribute name for a method-style call, `"call"` otherwise. -/
def callNameOfCall : PyExpr → String
  | .call (.name id) => id
  | .call (.attribute attr) => attr
  | _ => "call"

/-- `_record_call_branch`: a `call`-kind branch whose snippet falls back to
`"<callee>(...)"` when the source snippet is empty. -/
def recordCallBranch (owner : String) (stmtAttrs : Attrs) (callNode : PyExpr)
    (st : CollectorState) : String × CollectorState :=
  let callee := callNameOfCall callNode
  let snippet := getSnippet stmtAttrs
  let snippet := if snippet = "" then callee ++ "(...)" else snippet
  addBranch owner "call" stmtAttrs snippet (some callee) st

/-- `dict.fromkeys`-style dedup: keep the first occurrence of each element,
in order (`seen` accumulates the elements already kept). -/
def dedupFirstAux {α : Type} [DecidableEq α] (seen : List α) : List α → List α
  | [] => []
  | a :: rest =>
    if a ∈ seen then dedupFirstAux seen rest
    else a :: dedupFirstAux (a :: seen) rest

/-- `list(dict.fromkeys(exits))`. -/
def dedupFirst {α : Type} [DecidableEq α] (l : List α) : List α := dedupFirstAux [] l

/-- The shared tail of `_collect_stmt` for the call-shaped statement forms
(`Expr`/`Assign`/`AnnAssign`/`AugAssign`): a `call` branch when a call can
be extracted, otherwise no branch and the statement's own fall-through. -/
def collectCallLike (owner : String) (stmt : PyStmt) (a : Attrs) (st : CollectorState) :
    (Option String × List ExitAnchor × Bool) × CollectorState :=
  match extractStmtCall stmt with
  | some callNode =>
    let (branchId, st) := recordCallBranch owner a callNode st
    ((some branchId, [(branchId, "next")], true), st)
  | none => ((none, [], stmtFallsThrough stmt), st)

mutual
/-- `_collect_stmt`: process one statement, returning
`(entryId, exits, fallsThrough)` and the updated state.  The recursive
`_collect_block` calls on the `if` sub-blocks appear here with the body of
`collectBlock` (the loop over the statements followed by the block
fall-through computation) unfolded, so that the mutual recursion is
structural on the statement tree. -/
def collectStmt (owner : String) (stmt : PyStmt) (st : CollectorState) :
    (Option String × List ExitAnchor × Bool) × CollectorState :=
  match stmt with
  | .functionDef _ _ _ => ((none, [], true), st)
  | .classDef _ _ _ => ((none, [], true), st)
  | .ifStmt test body orelse a =>
    let snippet0 := getSnippet a
    let snippet := if snippet0 = "" then "if ...:" else snippet0
    let branchKind := if strStartsWith (lstrip snippet) "elif " then "elif" else "if"
    let (condId, st) := addBranch owner branchKind a snippet none st
    let knownTruth := knownTruthValue test
    let thenReachable := knownTruth ≠ some false
    let elseReachable := knownTruth ≠ some true
    let ((thenPair, st') : (Option String × List ExitAnchor) × CollectorState) :=
      collectBlockAux owner body none [] st
    let thenEntry := thenPair.1
    let thenExits := thenPair.2
    let thenFalls := blockFallsThrough body
    let st := st'
    let (elseStep : ((Option String × List ExitAnchor) × Bool) × CollectorState) :=
      if orelse.isNil then (((none, []), true), st)
      else
        let (p, st') := collectBlockAux owner orelse none [] st
        ((p, blockFallsThrough orelse), st')
    let elseEntry := elseStep.1.1.1
    let elseExits := elseStep.1.1.2
    let elseFalls := elseStep.1.2
    let st := elseStep.2
    let st := match thenEntry with
      | some e => if thenReachable then addFlow condId e "true" st else st
      | none => st
    let st := match elseEntry with
      | some e => if elseReachable then addFlow condId e "false" st else st
      | none => st
    let exits : List ExitAnchor :=
      (if thenReachable then thenExits else []) ++
      (if elseReachable then elseExits else []) ++
      (if thenEntry = none ∧ thenFalls ∧ thenReachable then [(condId, "true")] else []) ++
      (if elseEntry = none ∧ elseFalls ∧ elseReachable then
        (if orelse.isNil ∧ thenReachable ∧ thenFalls then [(condId, "next")]
         else [(condId, "false")])
       else [])
    if orelse.isNil then
      if thenFalls then ((some condId, [(condId, "next")], true), st)
      else ((some condId, [(condId, "false")], true), st)
    else
      ((some condId, dedupFirst exits,
        (thenReachable && thenFalls) || (elseReachable && elseFalls)), st)
  | .ret v a =>
    let snippet0 := getSnippet a
    let snippet := if snippet0 = "" then
        (match v with
         | none => "return"
         | some _ => "return ...")
      else snippet0
    let (branchId, st) := addBranch owner "return" a snippet none st
    ((some branchId, [], false), st)
  | .raiseStmt a =>
    let snippet0 := getSnippet a
    let snippet := if snippet0 = "" then "raise ..." else snippet0
    let (branchId, st) := addBranch owner "raise" a snippet none st
    ((some branchId, [], false), st)
  | .exprStmt _ a => collectCallLike owner stmt a st
  | .assign _ a => collectCallLike owner stmt a st
  | .annAssign _ a => collectCallLike owner stmt a st
  | .augAssign _ a => collectCallLike owner stmt a st
  | .forStmt _ _ a =>
    let snippet0 := getSnippet a
    let snippet := if snippet0 = "" then "for ...:" else snippet0
    let (branchId, st) := addBranch owner "for" a snippet none st
    ((some branchId, [(branchId, "next")], true), st)
  | .whileStmt _ _ _ a =>
    let snippet0 := getSnippet a
    let snippet := if snippet0 = "" then "while ...:" else snippet0
    let (branchId, st) := addBranch owner "while" a snippet none st
    ((some branchId, [(branchId, "next")], true), st)
  | .tryStmt _ _ _ _ a =>
    let (branchId, st) := addBranch owner "try" a "try:" none st
    ((some branchId, [(branchId, "next")], true), st)
  | .withStmt _ a =>
    let snippet0 := getSnippet a
    let snippet := if snippet0 = "" then "with ...:" else snippet0
    let (branchId, st) := addBranch owner "with" a snippet none st
    ((some branchId, [(branchId, "next")], true), st)
  | .otherStmt _ => ((none, [], stmtFallsThrough stmt), st)
  termination_by structural stmt

/-- The statement loop of `_collect_block`, carrying `entry_id` and
`pending_exits`. -/
def collectBlockAux (owner : String) (statements : PyBlock) (entryId : Option String)
    (pendingExits : List ExitAnchor) (st : CollectorState) :
    (Option String × List ExitAnchor) × CollectorState :=
  match statements with
  | .nil => ((entryId, pendingExits), st)
  | .cons stmt rest =>
    let ((stmtEntry, stmtExits, stmtFalls), st) := collectStmt owner stmt st
    match stmtEntry with
    | some e =>
      let entryId := match entryId with
        | none => some e
        | some x => some x
      let st := pendingExits.foldl (fun acc anch => addFlow anch.1 e anch.2 acc) st
      collectBlockAux owner rest entryId stmtExits st
    | none =>
      let pendingExits := if stmtFalls then pendingExits else []
      collectBlockAux owner rest entryId pendingExits st
  termination_by structural statements
end

/-- `_collect_block`: walk the statements, then report the block's own
fall-through computed over the full statement list. -/
def collectBlock (owner : String) (statements : PyBlock) (st : CollectorState) :
    (Option String × List ExitAnchor × Bool) × CollectorState :=
  let ((entryId, pendingExits), st) := collectBlockAux owner statements none [] st
  ((entryId, pendingExits, blockFallsThrough statements), st)

mutual
/-- The visitor dispatch (`NodeVisitor.visit` / `generic_visit`) restricted
to what affects the collector: `visit_FunctionDef` builds the function's
branch graph, appends the scope-entry anchor edge when the body produced an
entry, and then generic-visits the body under the function's qualified name;
`visit_ClassDef` generic-visits under the bare class name; compound
statements are generic-visited in field order; everything else contributes
nothing (expression visits touch only the `calls` inventory). -/
def visitStmt (scope : String) (s : PyStmt) (st : CollectorState) : CollectorState :=
  match s with
  | .functionDef name body a =>
    let qualifiedName := if scope ≠ "module" then scope ++ "." ++ name else name
    let st := { st with
      functions := st.functions ++ [⟨name, qualifiedName, a.lineno, a.endLineno⟩] }
    let ((entryId, _, _), st) := collectBlock qualifiedName body st
    let st := match entryId with
      | some e => addFlow ("owner::" ++ qualifiedName) e "next" st
      | none => st
    visitBlock qualifiedName body st
  | .classDef name body _ => visitBlock name body st
  | .ifStmt _ body orelse _ => visitBlock scope orelse (visitBlock scope body st)
  | .forStmt body orelse _ => visitBlock scope orelse (visitBlock scope body st)
  | .whileStmt _ body orelse _ => visitBlock scope orelse (visitBlock scope body st)
  | .tryStmt body handlers orelse finalbody _ =>
    visitBlock scope finalbody
      (visitBlock scope orelse (visitBlocks scope handlers (visitBlock scope body st)))
  | .withStmt body _ => visitBlock scope body st
  | _ => st
  termination_by structural s

/-- Visit each statement of a block in order. -/
def visitBlock (scope : String) (b : PyBlock) (st : CollectorState) : CollectorState :=
  match b with
  | .nil => st
  | .cons s rest => visitBlock scope rest (visitStmt scope s st)
  termination_by structural b

/-- Visit each handler body of a `try` in order. -/
def visitBlocks (scope : String) (bs : PyBlocks) (st : CollectorState) : CollectorState :=
  match bs with
  | .nil => st
  | .cons b rest => visitBlocks scope rest (visitBlock scope b st)
  termination_by structural bs
end

/-- One analysis run: `Collector().visit(tree)` on a module, starting from
scope `"module"`. -/
def runCollector (m : PyBlock) : CollectorState := visitBlock "module" m initialState

/-! ## The `main` entry point

`main` reads stdin, parses it as JSON (`json.loads`), reads the `content`
field with default `""` (`payload.get("content", "")`), parses the source
(`ast.parse`), visits the tree and prints one JSON object.  An uncaught
exception from `json.loads` (invalid JSON, or a payload without `.get`) or
from `ast.parse` (syntax error) terminates the interpreter with a non-zero
status before `print` runs.

`json.loads` and `ast.parse` are external to the analyzer: the decoded
payload is modelled as an `Option Payload` (`none` = the stdin text is not
a valid JSON object) and the parser as a `String → Option PyBlock`
parameter (`none` = `SyntaxError`).  The real `ast.parse` accepts the empty
source, producing an empty module — counterexamples instantiate the
parameter with a parser that has this property. -/

/-- The decoded JSON payload object; `content = none` models an object
without a `"content"` field. -/
structure Payload where
  content : Option String

/-- The two fatal outcomes of a run (uncaught exceptions in `main`). -/
inductive RunError where
  | jsonError
  | syntaxError
deriving Repr, DecidableEq

/-- The successful output object (the modelled fields). -/
structure AnalysisOutput where
  functions : List FunctionRec
  branches : List Branch
  branchFlows : List Flow
deriving Repr

/-- `main`: decode the payload, default the content to `""`, parse, visit,
and print; exceptions short-circuit before anything is printed. -/
def mainRun (parse : String → Option PyBlock) (payload : Option Payload) :
    Except RunError AnalysisOutput :=
  match payload with
  | none => .error .jsonError
  | some p =>
    let source := p.content.getD ""
    match parse source with
    | none => .error .syntaxError
    | some tree =>
      let st := runCollector tree
      .ok ⟨st.functions, st.branches, st.branchFlows⟩

/-- What the process writes to stdout: the output object on success,
nothing when an exception terminated the run first. -/
def stdoutOf (r : Except RunError AnalysisOutput) : Option AnalysisOutput :=
  match r with
  | .ok out => some out
  | .error _ => none

/-- The process exit status: 0 on success, 1 when an uncaught exception
terminated the interpreter. -/
def exitCodeOf (r : Except RunError AnalysisOutput) : Nat :=
  match r with
  | .ok _ => 0
  | .error _ => 1

/-- A stand-in for the external parser, agreeing with `ast.parse` on the
empty source: `ast.parse("")` succeeds and yields an empty module.  Every
other input is rejected, which is all the concrete instantiations need. -/
def parseEmptyOnly : String → Option PyBlock :=
  fun s => if s = "" then some .nil else none

/-! ## Spec-side resolution relation for the reachability oracle

`SpecTruth e r` renders §4.2 of the specification, amended only in the
negation clause: the oracle resolves a negation from the (recursively)
resolved inner result, so arbitrarily nested negations of literals
resolve. -/

/-- Expressions that are neither a literal `bool`/`None` constant nor a
`not`-negation: the spec's "all other expressions". -/
def PyExpr.isOtherShape : PyExpr → Prop
  | .constBool _ => False
  | .constNone => False
  | .unaryNot _ => False
  | _ => True

instance : DecidablePred PyExpr.isOtherShape := fun e => by
  cases e <;> simp [PyExpr.isOtherShape] <;> infer_instance

/-- The specification's resolution relation (§4.2, amended): literal
booleans resolve to themselves, literal `None` to `false`, a negation to
the negation of a known inner result (and to unknown when the inner result
is unknown), and every other expression to unknown. -/
inductive SpecTruth : PyExpr → Option Bool → Prop where
  | boolLit (b : Bool) : SpecTruth (.constBool b) (some b)
  | noneLit : SpecTruth .constNone (some false)
  | notKnown {e : PyExpr} {b : Bool} :
      SpecTruth e (some b) → SpecTruth (.unaryNot e) (some !b)
  | notUnknown {e : PyExpr} :
      SpecTruth e none → SpecTruth (.unaryNot e) none
  | otherShape {e : PyExpr} : e.isOtherShape → SpecTruth e none

/-! ## Concrete programs used by the claims -/

/-- Attributes with a present source segment. -/
def attrsOf (l e : Nat) (seg : String) : Attrs := ⟨l, e, some seg⟩

/-- Body of `def f():  if x: return  / y()` (the guard-clause program of C1). -/
def bodyC1 : PyBlock := .cons
    (.ifStmt (.name "x")
      (.cons (.ret none (attrsOf 3 3 "return")) .nil)
      .nil
      (attrsOf 2 3 "if x:\n        return"))
    (.cons (.exprStmt (.call (.name "y")) (attrsOf 4 4 "y()")) .nil)

/-- The C1 module: a single function `f` with the guard-clause body. -/
def modC1 : PyBlock :=
  .cons (.functionDef "f" bodyC1
    (attrsOf 1 4 "def f():\n    if x:\n        return\n    y()")) .nil

/-- Collector state after `visit_FunctionDef` has appended `f`'s record. -/
def stC1a : CollectorState := ⟨[⟨"f", "f", 1, 4⟩], [], [], [], []⟩

/-- The `if` branch of the C1 run. -/
def brIfC1 : Branch := ⟨"f::if#0", "if", "f", 0, 2, 3, "if x:", none⟩

/-- The `return` branch of the C1 run. -/
def brRetC1 : Branch := ⟨"f::return#0", "return", "f", 0, 3, 3, "return", none⟩

/-- The `call` branch of the C1 run. -/
def brCallC1 : Branch := ⟨"f::call#0", "call", "f", 0, 4, 4, "y()", some "y"⟩

/-- Collector state after `_collect_block` on `f`'s body in the C1 run. -/
def stC1b : CollectorState :=
  ⟨[⟨"f", "f", 1, 4⟩], [brIfC1, brRetC1, brCallC1],
   [⟨"f::if#0", "f::return#0", "true"⟩, ⟨"f::if#0", "f::call#0", "false"⟩],
   [("f::call", 1), ("f::return", 1), ("f::if", 1)],
   [("f::if#0", "f::call#0", "false"), ("f::if#0", "f::return#0", "true")]⟩

/-- Final collector state of the C1 run (after the scope-entry anchor). -/
def stC1c : CollectorState :=
  ⟨[⟨"f", "f", 1, 4⟩], [brIfC1, brRetC1, brCallC1],
   [⟨"f::if#0", "f::return#0", "true"⟩, ⟨"f::if#0", "f::call#0", "false"⟩,
    ⟨"owner::f", "f::if#0", "next"⟩],
   [("f::call", 1), ("f::return", 1), ("f::if", 1)],
   [("owner::f", "f::if#0", "next"), ("f::if#0", "f::call#0", "false"),
    ("f::if#0", "f::return#0", "true")]⟩

/-- Body of `def f():  if False: a()` (the dead-branch program of C6). -/
def bodyC6 : PyBlock := .cons
    (.ifStmt (.constBool false)
      (.cons (.exprStmt (.call (.name "a")) (attrsOf 3 3 "a()")) .nil)
      .nil
      (attrsOf 2 3 "if False:\n        a()"))
    .nil

/-- The C6 module: a single function `f` with the dead-branch body. -/
def modC6 : PyBlock :=
  .cons (.functionDef "f" bodyC6
    (attrsOf 1 3 "def f():\n    if False:\n        a()")) .nil

/-- Collector state after `visit_FunctionDef` has appended `f`'s record
in the C6 run. -/
def stC6a : CollectorState := ⟨[⟨"f", "f", 1, 3⟩], [], [], [], []⟩

/-- The `if` branch of the C6 run. -/
def brIfC6 : Branch := ⟨"f::if#0", "if", "f", 0, 2, 3, "if False:", none⟩

/-- The `call` branch of the C6 run. -/
def brCallC6 : Branch := ⟨"f::call#0", "call", "f", 0, 3, 3, "a()", some "a"⟩

/-- Collector state after `_collect_block` on `f`'s body in the C6 run:
both branches exist, but no `true` edge was emitted. -/
def stC6b : CollectorState :=
  ⟨[⟨"f", "f", 1, 3⟩], [brIfC6, brCallC6], [],
   [("f::call", 1), ("f::if", 1)], []⟩

/-- Final collector state of the C6 run. -/
def stC6c : CollectorState :=
  ⟨[⟨"f", "f", 1, 3⟩], [brIfC6, brCallC6],
   [⟨"owner::f", "f::if#0", "next"⟩],
   [("f::call", 1), ("f::if", 1)],
   [("owner::f", "f::if#0", "next")]⟩

/-- A one-call function body `y()`, used by the duplicate-name module. -/
def bodyCall : PyBlock := .cons (.exprStmt (.call (.name "y")) (attrsOf 2 2 "y()")) .nil

/-- A module with two top-level functions both named `f`: both share the
qualified name `f` and hence the synthetic anchor `owner::f`. -/
def modDup : PyBlock :=
  .cons (.functionDef "f" bodyCall (attrsOf 1 2 "def f():\n    y()"))
    (.cons (.functionDef "f" bodyCall (attrsOf 4 5 "def f():\n    y()")) .nil)

/-- A module with one function `f` whose body is the single call `y()`. -/
def modOneCall : PyBlock :=
  .cons (.functionDef "f" bodyCall (attrsOf 1 2 "def f():\n    y()")) .nil

/-! ## Run-wide invariants

The properties of a collector state that every operation of the run
preserves; the claims C5, C7, C8 and C10 are read off the invariants of the
final state. -/

/-- The nine branch kinds the builder ever passes to `_add_branch`. -/
def kindStrings : List String :=
  ["if", "elif", "for", "while", "try", "with", "call", "return", "raise"]

/-- The three flow labels the builder ever passes to `_add_flow`. -/
def flowTypeStrings : List String := ["next", "true", "false"]

/-- A string containing the `#` character (every branch id does). -/
def hashIn (s : String) : Prop := '#' ∈ s.data

instance : DecidablePred hashIn := fun s => by unfold hashIn; infer_instance

/-- The counter key `owner::kind` of a branch. -/
def branchKey (b : Branch) : String := b.owner ++ "::" ++ b.kind

/-- The synthetic scope-entry anchor of a qualified name. -/
def anchorOf (q : String) : String := "owner::" ++ q

/-- The emitted edges whose source is the anchor of `q`. -/
def anchorEdges (st : CollectorState) (q : String) : List Flow :=
  st.branchFlows.filter (fun e => e.source = anchorOf q)

/-- How many visited functions carry the qualified name `q`. -/
def fnCount (st : CollectorState) (q : String) : Nat :=
  (st.functions.filter (fun f => f.qualifiedName = q)).length

/-- The branches owned by qualified name `q`, in emission order. -/
def ownedBranches (st : CollectorState) (q : String) : List Branch :=
  st.branches.filter (fun b => b.owner = q)

/-- The dedup set mirrors the emitted edge list (it holds exactly the keys
of the emitted edges, most recent first) and holds no duplicates. -/
def KeysInv (st : CollectorState) : Prop :=
  st.branchFlowKeys = (st.branchFlows.map flowKey).reverse ∧ st.branchFlowKeys.Nodup

/-- A well-formed branch: its kind is one of the nine emitted kinds and its
id is the formatted `owner::kind#idx`. -/
def BranchWF (b : Branch) : Prop :=
  b.kind ∈ kindStrings ∧ b.id = mkBranchId b.owner b.kind b.idx

/-- All emitted branches are well-formed. -/
def BranchesWFInv (st : CollectorState) : Prop := ∀ b ∈ st.branches, BranchWF b

/-- Every emitted branch's index is below the current counter of its key. -/
def IdxInv (st : CollectorState) : Prop :=
  ∀ b ∈ st.branches, b.idx < counterVal st (branchKey b)

/-- No two emitted branches share `(owner, kind, idx)`. -/
def DistinctInv (st : CollectorState) : Prop :=
  st.branches.Pairwise (fun a b => ¬(a.owner = b.owner ∧ a.kind = b.kind ∧ a.idx = b.idx))

/-- Every emitted edge is labeled `next`, `true` or `false`. -/
def FlowTypeInv (st : CollectorState) : Prop :=
  ∀ e ∈ st.branchFlows, e.flowType ∈ flowTypeStrings

/-- The state-only invariant bundle preserved by every primitive step. -/
def SInv (st : CollectorState) : Prop :=
  KeysInv st ∧ BranchesWFInv st ∧ IdxInv st ∧ DistinctInv st ∧ FlowTypeInv st

/-- Every emitted branch is owned by some visited function. -/
def OwnedInv (st : CollectorState) : Prop :=
  ∀ b ∈ st.branches, ∃ fn ∈ st.functions, b.owner = fn.qualifiedName

/-- At most one anchor edge per visitation of a function with that name:
for `#`-free `q` the anchor `owner::q` sources at most `fnCount q` edges. -/
def AnchorUpInv (st : CollectorState) : Prop :=
  ∀ q : String, ¬ hashIn q → (anchorEdges st q).length ≤ fnCount st q

/-- A function whose body produced a branch got its anchor edge. -/
def AnchorLowInv (st : CollectorState) : Prop :=
  ∀ q : String, ¬ hashIn q → ownedBranches st q ≠ [] → 1 ≤ (anchorEdges st q).length

/-- Anchor-sourced edges are `next`-labeled, and when at most one function
carries `q` they target the first branch owned by `q`. -/
def AnchorFormInv (st : CollectorState) : Prop :=
  ∀ q : String, ¬ hashIn q → ∀ e ∈ st.branchFlows, e.source = anchorOf q →
    e.flowType = "next" ∧
    (fnCount st q ≤ 1 → (ownedBranches st q).head?.map (fun b => b.id) = some e.target)

/-- The full invariant bundle of a run state. -/
def GInv (st : CollectorState) : Prop :=
  SInv st ∧ OwnedInv st ∧ AnchorUpInv st ∧ AnchorLowInv st ∧ AnchorFormInv st

/-- How a state evolves across the graph-building steps of one
`_collect_block`/`_collect_stmt` call for `owner`: the inventory is
untouched, branches are appended and owned by `owner` with well-formed
ids, flows are appended with id-shaped (`#`-containing) sources and one of
the three labels, counters never decrease, and the state invariants are
preserved. -/
def CollectExtends (owner : String) (st st' : CollectorState) : Prop :=
  st'.functions = st.functions ∧
  (∃ Δ, st'.branches = st.branches ++ Δ ∧ ∀ b ∈ Δ, b.owner = owner ∧ BranchWF b) ∧
  (∃ Δ, st'.branchFlows = st.branchFlows ++ Δ ∧
    ∀ e ∈ Δ, hashIn e.source ∧ e.flowType ∈ flowTypeStrings) ∧
  (∀ key, counterVal st key ≤ counterVal st' key) ∧
  (SInv st → SInv st')

/-- Exit anchors whose ids are id-shaped and whose labels are among the
three emitted flow labels. -/
def AnchorsOK (l : List ExitAnchor) : Prop :=
  ∀ x ∈ l, hashIn x.1 ∧ x.2 ∈ flowTypeStrings

/-- The output contract of `_collect_stmt`/`_collect_block` relative to the
incoming state: the state extends per `CollectExtends`, the returned exit
anchors are well-shaped, no entry means no new branch, and an entry names
the first branch appended. -/
def CollectResultOK (owner : String) (st : CollectorState)
    (res : (Option String × List ExitAnchor × Bool) × CollectorState) : Prop :=
  CollectExtends owner st res.2 ∧
  AnchorsOK res.1.2.1 ∧
  (res.1.1 = none → res.2.branches = st.branches) ∧
  (∀ e, res.1.1 = some e →
    ∃ b Δ, res.2.branches = st.branches ++ (b :: Δ) ∧ b.id = e)

/-- The body of `_collect_stmt`'s conditional case, abstracted over the
already-rendered snippet and branch kind (which `collectStmt` computes from
the node's source segment).  `collectStmt` on an `if` statement is
definitionally `ifStepResult` at the computed snippet and kind. -/
def ifStepResult (owner : String) (test : PyExpr) (body orelse : PyBlock) (a : Attrs)
    (snippet branchKind : String) (st : CollectorState) :
    (Option String × List ExitAnchor × Bool) × CollectorState :=
  let (condId, st) := addBranch owner branchKind a snippet none st
  let knownTruth := knownTruthValue test
  let thenReachable := knownTruth ≠ some false
  let elseReachable := knownTruth ≠ some true
  let ((thenPair, st') : (Option String × List ExitAnchor) × CollectorState) :=
    collectBlockAux owner body none [] st
  let thenEntry := thenPair.1
  let thenExits := thenPair.2
  let thenFalls := blockFallsThrough body
  let st := st'
  let (elseStep : ((Option String × List ExitAnchor) × Bool) × CollectorState) :=
    if orelse.isNil then (((none, []), true), st)
    else
      let (p, st') := collectBlockAux owner orelse none [] st
      ((p, blockFallsThrough orelse), st')
  let elseEntry := elseStep.1.1.1
  let elseExits := elseStep.1.1.2
  let elseFalls := elseStep.1.2
  let st := elseStep.2
  let st := match thenEntry with
    | some e => if thenReachable then addFlow condId e "true" st else st
    | none => st
  let st := match elseEntry with
    | some e => if elseReachable then addFlow condId e "false" st else st
    | none => st
  let exits : List ExitAnchor :=
    (if thenReachable then thenExits else []) ++
    (if elseReachable then elseExits else []) ++
    (if thenEntry = none ∧ thenFalls ∧ thenReachable then [(condId, "true")] else []) ++
    (if elseEntry = none ∧ elseFalls ∧ elseReachable then
      (if orelse.isNil ∧ thenReachable ∧ thenFalls then [(condId, "next")]
       else [(condId, "false")])
     else [])
  if orelse.isNil then
    if thenFalls then ((some condId, [(condId, "next")], true), st)
    else ((some condId, [(condId, "false")], true), st)
  else
    ((some condId, dedupFirst exits,
      (thenReachable && thenFalls) || (elseReachable && elseFalls)), st)

/-- How a state evolves across a visitor step: every record list only
grows, counters never decrease, and the run invariant is preserved. -/
def VisitExtends (st st' : CollectorState) : Prop :=
  (∃ Δ, st'.functions = st.functions ++ Δ) ∧
  (∃ Δ, st'.branches = st.branches ++ Δ) ∧
  (∃ Δ, st'.branchFlows = st.branchFlows ++ Δ) ∧
  (∀ key, counterVal st key ≤ counterVal st' key) ∧
  (GInv st → GInv st')

/-- The output contract of the `_collect_block` statement loop relative to
the incoming state and the incoming `entry_id` accumulator. -/
def AuxResultOK (owner : String) (st : CollectorState) (entryId : Option String)
    (res : (Option String × List ExitAnchor) × CollectorState) : Prop :=
  CollectExtends owner st res.2 ∧
  AnchorsOK res.1.2 ∧
  (res.1.1 = none → entryId = none ∧ res.2.branches = st.branches) ∧
  (∀ e, res.1.1 = some e → entryId = some e ∨
    (entryId = none ∧ ∃ b Δ, res.2.branches = st.branches ++ (b :: Δ) ∧ b.id = e))

end AnalyzePython

namespace AnalyzePython

/-! ## Unfolding lemmas for the visitor -/

theorem visitBlock_cons (scope : String) (s : PyStmt) (rest : PyBlock) (st : CollectorState) :
    visitBlock scope (.cons s rest) st = visitBlock scope rest (visitStmt scope s st) := rfl

theorem visitBlock_nil (scope : String) (st : CollectorState) :
    visitBlock scope .nil st = st := rfl

theorem visitStmt_functionDef (scope name : String) (body : PyBlock) (a : Attrs)
    (st : CollectorState) :
    visitStmt scope (.functionDef name body a) st =
      (let qualifiedName := if scope ≠ "module" then scope ++ "." ++ name else name
       let st' : CollectorState :=
         { st with functions :=
            st.functions ++ [⟨name, qualifiedName, a.lineno, a.endLineno⟩] }
       let r := collectBlock qualifiedName body st'
       let st'' := match r.1.1 with
         | some e => addFlow ("owner::" ++ qualifiedName) e "next" r.2
         | none => r.2
       visitBlock qualifiedName body st'') := rfl

/-! ## Decimal rendering: characterisation and injectivity

`_add_branch` formats ids with `f"{idx}"`, i.e. `Nat.repr`.  These lemmas
show the rendering uses only digit characters and is injective, which
drives the global uniqueness of branch ids. -/

theorem toDigitsCore_eq (fuel : Nat) : ∀ (n : Nat) (acc : List Char), n < fuel →
    Nat.toDigitsCore 10 fuel n acc =
      (if n = 0 then ['0'] else ((Nat.digits 10 n).map Nat.digitChar).reverse) ++ acc := by
  induction fuel with
  | zero => intro n acc h; omega
  | succ f ih =>
    intro n acc h
    rw [Nat.toDigitsCore]
    by_cases h10 : n / 10 = 0
    · rw [if_pos h10]
      by_cases hn : n = 0
      · subst hn; rw [if_pos rfl]; rfl
      · have hlt : n < 10 := by
          by_contra hge
          have h10n : 10 ≤ n := by omega
          have hdiv : 0 < n / 10 := Nat.div_pos h10n (by norm_num)
          omega
        rw [if_neg hn]
        rw [Nat.digits_def' (by norm_num : (1 : Nat) < 10) (Nat.pos_of_ne_zero hn)]
        rw [h10]
        simp [Nat.mod_eq_of_lt hlt]
    · rw [if_neg h10]
      have hn : n ≠ 0 := by
        intro h0
        subst h0
        simp at h10
      have hstep : n / 10 < f := by
        have h1 : n / 10 < n := Nat.div_lt_self (Nat.pos_of_ne_zero hn) (by norm_num)
        omega
      rw [ih (n / 10) (Nat.digitChar (n % 10) :: acc) hstep]
      rw [if_neg h10, if_neg hn]
      rw [Nat.digits_def' (by norm_num : (1 : Nat) < 10) (Nat.pos_of_ne_zero hn)]
      simp [List.append_assoc]

theorem natRepr_data (n : Nat) :
    (Nat.repr n).data =
      if n = 0 then ['0'] else ((Nat.digits 10 n).map Nat.digitChar).reverse := by
  show (Nat.toDigits 10 n).asString.data = _
  rw [Nat.toDigits, toDigitsCore_eq (n + 1) n [] (Nat.lt_succ_self n)]
  simp [List.asString]

theorem digitChar_mem_digits : ∀ d < 10,
    Nat.digitChar d ∈ ['0', '1', '2', '3', '4', '5', '6', '7', '8', '9'] := by decide

theorem natRepr_chars (n : Nat) : ∀ c ∈ (Nat.repr n).data, c ≠ '#' ∧ c ≠ ':' := by
  intro c hc
  rw [natRepr_data] at hc
  by_cases hn : n = 0
  · rw [if_pos hn] at hc
    simp at hc
    subst hc
    decide
  · rw [if_neg hn] at hc
    rw [List.mem_reverse] at hc
    obtain ⟨d, hd, hdc⟩ := List.mem_map.mp hc
    have hlt : d < 10 := Nat.digits_lt_base (by norm_num) hd
    have := digitChar_mem_digits d hlt
    rw [hdc] at this
    fin_cases this <;> decide

theorem digitChar_inj_lt : ∀ a < 10, ∀ b < 10,
    Nat.digitChar a = Nat.digitChar b → a = b := by decide

theorem digitChar_map_inj : ∀ (l1 l2 : List Nat), (∀ x ∈ l1, x < 10) →
    (∀ x ∈ l2, x < 10) → l1.map Nat.digitChar = l2.map Nat.digitChar → l1 = l2 := by
  intro l1
  induction l1 with
  | nil =>
    intro l2 _ _ h
    cases l2 with
    | nil => rfl
    | cons b t => simp at h
  | cons a t ih =>
    intro l2 h1 h2 h
    cases l2 with
    | nil => simp at h
    | cons b t2 =>
      simp only [List.map_cons, List.cons.injEq] at h
      have hab : a = b :=
        digitChar_inj_lt a (h1 a (by simp)) b (h2 b (by simp)) h.1
      have ht : t = t2 :=
        ih t2 (fun x hx => h1 x (by simp [hx])) (fun x hx => h2 x (by simp [hx])) h.2
      rw [hab, ht]

theorem natRepr_data_inj {m n : Nat} (h : (Nat.repr m).data = (Nat.repr n).data) :
    m = n := by
  rw [natRepr_data, natRepr_data] at h
  have zeroCase : ∀ k : Nat, k ≠ 0 →
      ((Nat.digits 10 k).map Nat.digitChar).reverse = ['0'] → False := by
    intro k hk hrev
    have hmap : (Nat.digits 10 k).map Nat.digitChar = ['0'] := by
      have := congrArg List.reverse hrev
      simpa using this
    obtain ⟨l, hl⟩ : ∃ l, Nat.digits 10 k = l := ⟨_, rfl⟩
    rw [hl] at hmap
    cases l with
    | nil => simp at hmap
    | cons d t =>
      cases t with
      | nil =>
        simp only [List.map_cons, List.map_nil, List.cons.injEq] at hmap
        have hd10 : d < 10 := Nat.digits_lt_base (by norm_num) (by rw [hl]; simp)
        have hd0 : d = 0 := by
          have : ∀ x < 10, Nat.digitChar x = '0' → x = 0 := by decide
          exact this d hd10 hmap.1
        have := Nat.ofDigits_digits 10 k
        rw [hl, hd0] at this
        simp [Nat.ofDigits] at this
        omega
      | cons d2 t2 => simp at hmap
  by_cases hm : m = 0 <;> by_cases hn : n = 0
  · omega
  · rw [if_pos hm, if_neg hn] at h
    exact absurd h.symm (fun hh => (zeroCase n hn hh).elim)
  · rw [if_neg hm, if_pos hn] at h
    exact absurd h (fun hh => (zeroCase m hm hh).elim)
  · rw [if_neg hm, if_neg hn] at h
    have hmap : (Nat.digits 10 m).map Nat.digitChar = (Nat.digits 10 n).map Nat.digitChar := by
      have := congrArg List.reverse h
      simpa using this
    have hdig : Nat.digits 10 m = Nat.digits 10 n :=
      digitChar_map_inj _ _ (fun x hx => Nat.digits_lt_base (by norm_num) hx)
        (fun x hx => Nat.digits_lt_base (by norm_num) hx) hmap
    have h1 := Nat.ofDigits_digits 10 m
    have h2 := Nat.ofDigits_digits 10 n
    rw [hdig] at h1
    omega

/-! ## Splitting formatted ids at their separators -/

theorem append_sep_inj {c : Char} : ∀ {l1 l2 r1 r2 : List Char}, c ∉ l1 → c ∉ l2 →
    l1 ++ c :: r1 = l2 ++ c :: r2 → l1 = l2 ∧ r1 = r2 := by
  intro l1
  induction l1 with
  | nil =>
    intro l2 r1 r2 _ h2 h
    cases l2 with
    | nil => simpa using h
    | cons b t =>
      simp only [List.nil_append, List.cons_append, List.cons.injEq] at h
      exact absurd (by simp [h.1]) h2
  | cons a t ih =>
    intro l2 r1 r2 h1 h2 h
    cases l2 with
    | nil =>
      simp only [List.nil_append, List.cons_append, List.cons.injEq] at h
      exact absurd (by simp [h.1]) h1
    | cons b t2 =>
      simp only [List.cons_append, List.cons.injEq] at h
      have := ih (by simp at h1; exact h1.2) (by simp at h2; exact h2.2) h.2
      exact ⟨by rw [h.1, this.1], this.2⟩

theorem string_data_append (a b : String) : (a ++ b).data = a.data ++ b.data := by
  cases a
  cases b
  rfl

theorem string_data_inj {a b : String} (h : a.data = b.data) : a = b := by
  cases a
  cases b
  exact congrArg String.mk h

theorem kind_colon_free {k : String} (hk : k ∈ kindStrings) : ':' ∉ k.data := by
  fin_cases hk <;> decide

theorem mkBranchId_inj {o1 k1 o2 k2 : String} {i1 i2 : Nat}
    (hk1 : k1 ∈ kindStrings) (hk2 : k2 ∈ kindStrings)
    (h : mkBranchId o1 k1 i1 = mkBranchId o2 k2 i2) :
    o1 = o2 ∧ k1 = k2 ∧ i1 = i2 := by
  have hd := congrArg String.data h
  simp only [mkBranchId, string_data_append] at hd
  have hd' := congrArg List.reverse hd
  simp only [List.reverse_append] at hd'
  have hrev' : (Nat.repr i1).data.reverse ++ '#' ::
        (k1.data.reverse ++ ':' :: ':' :: o1.data.reverse) =
      (Nat.repr i2).data.reverse ++ '#' ::
        (k2.data.reverse ++ ':' :: ':' :: o2.data.reverse) := by
    simpa [List.append_assoc] using hd'
  have hnh1 : '#' ∉ (Nat.repr i1).data.reverse := by
    rw [List.mem_reverse]
    intro hmem
    exact ((natRepr_chars i1 _ hmem).1 rfl).elim
  have hnh2 : '#' ∉ (Nat.repr i2).data.reverse := by
    rw [List.mem_reverse]
    intro hmem
    exact ((natRepr_chars i2 _ hmem).1 rfl).elim
  obtain ⟨hrepr, hrest⟩ := append_sep_inj hnh1 hnh2 hrev'
  have hi : i1 = i2 := by
    apply natRepr_data_inj
    have := congrArg List.reverse hrepr
    simpa using this
  have hnc1 : ':' ∉ k1.data.reverse := by
    rw [List.mem_reverse]; exact kind_colon_free hk1
  have hnc2 : ':' ∉ k2.data.reverse := by
    rw [List.mem_reverse]; exact kind_colon_free hk2
  obtain ⟨hkind, hres2⟩ := append_sep_inj hnc1 hnc2 hrest
  have hk : k1 = k2 := by
    apply string_data_inj
    have := congrArg List.reverse hkind
    simpa using this
  have hrev2 : o1.data.reverse = o2.data.reverse := by simpa using hres2
  have ho : o1 = o2 := by
    apply string_data_inj
    simpa using congrArg List.reverse hrev2
  exact ⟨ho, hk, hi⟩

theorem mkBranchId_hashIn (o k : String) (i : Nat) : hashIn (mkBranchId o k i) := by
  unfold hashIn mkBranchId
  simp [string_data_append]

theorem anchorOf_not_hashIn {q : String} (h : ¬ hashIn q) : ¬ hashIn (anchorOf q) := by
  unfold hashIn anchorOf at *
  rw [string_data_append]
  intro hmem
  rcases List.mem_append.mp hmem with h1 | h1
  · revert h1; decide
  · exact h h1

theorem anchorOf_inj {q1 q2 : String} (h : anchorOf q1 = anchorOf q2) : q1 = q2 := by
  unfold anchorOf at h
  have := congrArg String.data h
  rw [string_data_append, string_data_append] at this
  exact string_data_inj (List.append_cancel_left this)

theorem hashIn_ne_anchor {s q : String} (hs : hashIn s) (hq : ¬ hashIn q) :
    s ≠ anchorOf q := by
  intro h
  exact anchorOf_not_hashIn hq (h ▸ hs)

/-! ## Primitive step lemmas: `_add_flow`, `_add_branch`, counters -/

theorem flowKey_inj {e1 e2 : Flow} (h : flowKey e1 = flowKey e2) : e1 = e2 := by
  cases e1
  cases e2
  simp only [flowKey, Prod.mk.injEq] at h
  simp [h.1, h.2.1, h.2.2]

theorem addFlow_functions (s t f : String) (st : CollectorState) :
    (addFlow s t f st).functions = st.functions := by
  simp only [addFlow]
  split <;> rfl

theorem addFlow_branches (s t f : String) (st : CollectorState) :
    (addFlow s t f st).branches = st.branches := by
  simp only [addFlow]
  split <;> rfl

theorem addFlow_branchCounter (s t f : String) (st : CollectorState) :
    (addFlow s t f st).branchCounter = st.branchCounter := by
  simp only [addFlow]
  split <;> rfl

theorem addFlow_counterVal (s t f : String) (st : CollectorState) (k : String) :
    counterVal (addFlow s t f st) k = counterVal st k := by
  unfold counterVal
  rw [addFlow_branchCounter]

theorem addFlow_flows (s t f : String) (st : CollectorState) :
    (addFlow s t f st).branchFlows = st.branchFlows ∨
    (addFlow s t f st).branchFlows = st.branchFlows ++ [⟨s, t, f⟩] := by
  simp only [addFlow]
  split
  · exact .inl rfl
  · exact .inr rfl

theorem addFlow_keysInv {st : CollectorState} (h : KeysInv st) (s t f : String) :
    KeysInv (addFlow s t f st) := by
  simp only [addFlow]
  split
  · exact h
  · rename_i hnot
    constructor
    · show (s, t, f) :: st.branchFlowKeys =
        ((st.branchFlows ++ [(⟨s, t, f⟩ : Flow)]).map flowKey).reverse
      rw [List.map_append, List.reverse_append]
      simp [flowKey, h.1]
    · exact List.Nodup.cons hnot h.2

theorem addFlow_mem {st : CollectorState} (h : KeysInv st) (s t f : String) :
    (⟨s, t, f⟩ : Flow) ∈ (addFlow s t f st).branchFlows := by
  simp only [addFlow]
  split
  · rename_i hin
    rw [h.1, List.mem_reverse] at hin
    obtain ⟨e, he, hk⟩ := List.mem_map.mp hin
    have : e = ⟨s, t, f⟩ := flowKey_inj (by simpa [flowKey] using hk)
    rwa [← this]
  · simp

theorem addFlow_flowTypeInv {st : CollectorState} (h : FlowTypeInv st) {f : String}
    (hf : f ∈ flowTypeStrings) (s t : String) : FlowTypeInv (addFlow s t f st) := by
  rcases addFlow_flows s t f st with heq | heq
  · intro e he
    rw [heq] at he
    exact h e he
  · intro e he
    rw [heq] at he
    rcases List.mem_append.mp he with h1 | h1
    · exact h e h1
    · simp at h1
      rw [h1]
      exact hf

theorem addFlow_sinv {st : CollectorState} (h : SInv st) {f : String}
    (hf : f ∈ flowTypeStrings) (s t : String) : SInv (addFlow s t f st) := by
  obtain ⟨hk, hb, hi, hd, hft⟩ := h
  refine ⟨addFlow_keysInv hk s t f, ?_, ?_, ?_, addFlow_flowTypeInv hft hf s t⟩
  · intro b hb'
    rw [addFlow_branches] at hb'
    exact hb b hb'
  · intro b hb'
    rw [addFlow_branches] at hb'
    rw [addFlow_counterVal]
    exact hi b hb'
  · rw [DistinctInv, addFlow_branches]
    exact hd

theorem addFlow_collectExtends {owner : String} {st : CollectorState} {s t f : String}
    (hs : hashIn s) (hf : f ∈ flowTypeStrings) :
    CollectExtends owner st (addFlow s t f st) := by
  refine ⟨addFlow_functions s t f st, ⟨[], by simp [addFlow_branches], by simp⟩, ?_,
    fun k => le_of_eq (addFlow_counterVal s t f st k).symm, fun h => addFlow_sinv h hf s t⟩
  rcases addFlow_flows s t f st with heq | heq
  · exact ⟨[], by simp [heq], by simp⟩
  · refine ⟨[⟨s, t, f⟩], by simp [heq], ?_⟩
    intro e he
    simp at he
    rw [he]
    exact ⟨hs, hf⟩

theorem collectExtends_refl (owner : String) (st : CollectorState) :
    CollectExtends owner st st :=
  ⟨rfl, ⟨[], by simp, by simp⟩, ⟨[], by simp, by simp⟩, fun _ => le_refl _, id⟩

theorem collectExtends_trans {owner : String} {st1 st2 st3 : CollectorState}
    (h1 : CollectExtends owner st1 st2) (h2 : CollectExtends owner st2 st3) :
    CollectExtends owner st1 st3 := by
  obtain ⟨hf1, ⟨Δb1, hb1, hbw1⟩, ⟨Δf1, hfl1, hfw1⟩, hc1, hs1⟩ := h1
  obtain ⟨hf2, ⟨Δb2, hb2, hbw2⟩, ⟨Δf2, hfl2, hfw2⟩, hc2, hs2⟩ := h2
  refine ⟨hf2.trans hf1, ⟨Δb1 ++ Δb2, ?_, ?_⟩, ⟨Δf1 ++ Δf2, ?_, ?_⟩,
    fun k => le_trans (hc1 k) (hc2 k), fun h => hs2 (hs1 h)⟩
  · rw [hb2, hb1, List.append_assoc]
  · intro b hb
    rcases List.mem_append.mp hb with h | h
    · exact hbw1 b h
    · exact hbw2 b h
  · rw [hfl2, hfl1, List.append_assoc]
  · intro e he
    rcases List.mem_append.mp he with h | h
    · exact hfw1 e h
    · exact hfw2 e h

theorem getD_lookup_cons (key : String) (v : Nat) (l : List (String × Nat)) (x : String) :
    (((key, v) :: l).lookup x).getD 0 = if x = key then v else (l.lookup x).getD 0 := by
  by_cases hx : x = key
  · simp [List.lookup, hx]
  · have hbeq : (x == key) = false := by
      simp [hx]
    simp [List.lookup, hbeq, hx]

/-- The explicit form of `_add_branch`. -/
theorem addBranch_eq (o k : String) (a : Attrs) (sn : String) (c : Option String)
    (st : CollectorState) :
    addBranch o k a sn c st =
      (mkBranchId o k (counterVal st (o ++ "::" ++ k)),
       { st with
         branchCounter :=
           (o ++ "::" ++ k, counterVal st (o ++ "::" ++ k) + 1) :: st.branchCounter
         branches := st.branches ++
           [mkBranch o k a sn c (counterVal st (o ++ "::" ++ k))] }) := rfl

theorem addBranch_collectExtends {owner k : String} (hk : k ∈ kindStrings) (a : Attrs)
    (sn : String) (c : Option String) (st : CollectorState) :
    CollectExtends owner st (addBranch owner k a sn c st).2 := by
  rw [addBranch_eq]
  set idx := counterVal st (owner ++ "::" ++ k) with hidx
  set B : Branch := mkBranch owner k a sn c idx with hB
  have hcnt : ∀ x, counterVal st x ≤
      counterVal { st with
        branchCounter := (owner ++ "::" ++ k, idx + 1) :: st.branchCounter } x := by
    intro x
    show counterVal st x ≤
      (((owner ++ "::" ++ k, idx + 1) :: st.branchCounter).lookup x).getD 0
    rw [getD_lookup_cons]
    by_cases hx : x = owner ++ "::" ++ k
    · rw [if_pos hx, hx, ← hidx]
      omega
    · rw [if_neg hx]
      exact le_refl _
  refine ⟨rfl, ⟨[B], rfl, ?_⟩, ⟨[], by simp, by simp⟩, hcnt, ?_⟩
  · intro b hb
    simp at hb
    rw [hb]
    exact ⟨rfl, hk, rfl⟩
  · intro ⟨hkeys, hbwf, hidxinv, hdist, hft⟩
    refine ⟨hkeys, ?_, ?_, ?_, hft⟩
    · intro b hb
      rcases List.mem_append.mp hb with h | h
      · exact hbwf b h
      · simp at h
        rw [h]
        exact ⟨hk, rfl⟩
    · intro b hb
      rcases List.mem_append.mp hb with h | h
      · exact lt_of_lt_of_le (hidxinv b h) (hcnt (branchKey b))
      · simp at h
        rw [h]
        show idx <
          (((owner ++ "::" ++ k, idx + 1) :: st.branchCounter).lookup (branchKey B)).getD 0
        have hkeyB : branchKey B = owner ++ "::" ++ k := rfl
        rw [hkeyB, getD_lookup_cons, if_pos rfl]
        omega
    · rw [DistinctInv]
      show (st.branches ++ [B]).Pairwise _
      rw [List.pairwise_append]
      refine ⟨hdist, by simp, ?_⟩
      intro b hb b' hb'
      simp at hb'
      rw [hb']
      intro ⟨ho, hkk, hii⟩
      have hkey : branchKey b = owner ++ "::" ++ k := by
        rw [branchKey, ho, hkk]
        rfl
      have := hidxinv b hb
      rw [hkey] at this
      show False
      have hBidx : B.idx = idx := rfl
      rw [hBidx] at hii
      omega

/-- Membership through `dict.fromkeys` dedup. -/
theorem dedupFirstAux_subset {α : Type} [DecidableEq α] :
    ∀ (seen l : List α) (x : α), x ∈ dedupFirstAux seen l → x ∈ l := by
  intro seen l
  induction l generalizing seen with
  | nil => intro x hx; simp [dedupFirstAux] at hx
  | cons a t ih =>
    intro x hx
    rw [dedupFirstAux] at hx
    split at hx
    · exact List.mem_cons_of_mem a (ih seen x hx)
    · rcases List.mem_cons.mp hx with h | h
      · rw [h]; exact List.mem_cons_self a t
      · exact List.mem_cons_of_mem a (ih _ x h)

theorem dedupFirst_subset {α : Type} [DecidableEq α] (l : List α) (x : α)
    (h : x ∈ dedupFirst l) : x ∈ l :=
  dedupFirstAux_subset [] l x h

/-! ## The collector walk: output contract of `_collect_stmt`/`_collect_block` -/

theorem anchorsOK_nil : AnchorsOK [] := by
  intro x hx
  simp at hx

theorem anchorsOK_append {l1 l2 : List ExitAnchor} (h1 : AnchorsOK l1)
    (h2 : AnchorsOK l2) : AnchorsOK (l1 ++ l2) := by
  intro x hx
  rcases List.mem_append.mp hx with h | h
  · exact h1 x h
  · exact h2 x h

theorem anchorsOK_single {i f : String} (hi : hashIn i) (hf : f ∈ flowTypeStrings) :
    AnchorsOK [(i, f)] := by
  intro x hx
  simp at hx
  rw [hx]
  exact ⟨hi, hf⟩

theorem anchorsOK_dedup {l : List ExitAnchor} (h : AnchorsOK l) :
    AnchorsOK (dedupFirst l) := by
  intro x hx
  exact h x (dedupFirst_subset l x hx)

theorem condFlowStep_extends (owner cond ft : String) (hc : hashIn cond)
    (hf : ft ∈ flowTypeStrings) (o : Option String) (p : Prop) [Decidable p]
    (st : CollectorState) :
    CollectExtends owner st
      (match o with
       | some e => if p then addFlow cond e ft st else st
       | none => st) := by
  cases o with
  | none => exact collectExtends_refl owner st
  | some e =>
    dsimp only
    by_cases hp : p
    · rw [if_pos hp]
      exact addFlow_collectExtends hc hf
    · rw [if_neg hp]
      exact collectExtends_refl owner st

theorem foldl_addFlow_extends (owner e : String) :
    ∀ (pend : List ExitAnchor) (st : CollectorState), AnchorsOK pend →
    CollectExtends owner st
      (pend.foldl (fun acc anch => addFlow anch.1 e anch.2 acc) st) := by
  intro pend
  induction pend with
  | nil =>
    intro st _
    exact collectExtends_refl owner st
  | cons a t ih =>
    intro st hp
    have ha := hp a (by simp)
    rw [List.foldl_cons]
    exact collectExtends_trans (addFlow_collectExtends ha.1 ha.2)
      (ih _ (fun x hx => hp x (by simp [hx])))

/-- A single branch emission followed by a literal result tuple satisfies
the statement contract. -/
theorem branch_step_ok (owner k : String) (hk : k ∈ kindStrings) (a : Attrs)
    (sn : String) (c : Option String) (st : CollectorState)
    (exits : List ExitAnchor) (falls : Bool) (hex : AnchorsOK exits) :
    CollectResultOK owner st
      ((some (addBranch owner k a sn c st).1, exits, falls),
       (addBranch owner k a sn c st).2) := by
  have habe := addBranch_eq owner k a sn c st
  refine ⟨addBranch_collectExtends hk a sn c st, hex, ?_, ?_⟩
  · intro h
    simp at h
  intro e he
  simp only [Option.some.injEq] at he
  refine ⟨mkBranch owner k a sn c (counterVal st (owner ++ "::" ++ k)), [], ?_, ?_⟩
  · rw [habe]
  · show mkBranchId owner k (counterVal st (owner ++ "::" ++ k)) = e
    rw [← he, habe]

theorem hashIn_addBranch_fst (owner k : String) (a : Attrs) (sn : String)
    (c : Option String) (st : CollectorState) :
    hashIn (addBranch owner k a sn c st).1 := by
  rw [addBranch_eq]
  exact mkBranchId_hashIn owner k _

theorem collectStmt_if_eq (owner : String) (test : PyExpr) (body orelse : PyBlock)
    (a : Attrs) (st : CollectorState) :
    collectStmt owner (.ifStmt test body orelse a) st =
      ifStepResult owner test body orelse a
        (if getSnippet a = "" then "if ...:" else getSnippet a)
        (if strStartsWith
            (lstrip (if getSnippet a = "" then "if ...:" else getSnippet a)) "elif "
         then "elif" else "if") st := rfl

theorem collectCallLike_ok (owner : String) (stmt : PyStmt) (a : Attrs)
    (st : CollectorState) :
    CollectResultOK owner st (collectCallLike owner stmt a st) := by
  unfold collectCallLike
  cases hx : extractStmtCall stmt with
  | none =>
    refine ⟨collectExtends_refl owner st, anchorsOK_nil, fun _ => rfl, ?_⟩
    intro e he
    simp at he
  | some callNode =>
    show CollectResultOK owner st
      ((some (recordCallBranch owner a callNode st).1,
        [((recordCallBranch owner a callNode st).1, "next")], true),
       (recordCallBranch owner a callNode st).2)
    unfold recordCallBranch
    exact branch_step_ok owner "call" (by decide) a _ _ st _ true
      (anchorsOK_single (hashIn_addBranch_fst owner "call" a _ _ st) (by decide))

theorem anchorsOK_ite {c : Prop} [Decidable c] {l : List ExitAnchor} (h : AnchorsOK l) :
    AnchorsOK (if c then l else []) := by
  split
  · exact h
  · exact anchorsOK_nil

theorem anchorsOK_ite2 {c : Prop} [Decidable c] {l1 l2 : List ExitAnchor}
    (h1 : AnchorsOK l1) (h2 : AnchorsOK l2) : AnchorsOK (if c then l1 else l2) := by
  split
  · exact h1
  · exact h2

/-- Push a "first appended branch" fact through a later extension. -/
theorem branches_cons_extend {owner : String} {stA stB : CollectorState}
    (hext : CollectExtends owner stA stB) {L : List Branch} {b : Branch}
    {Δ : List Branch} (h : stA.branches = L ++ (b :: Δ)) :
    ∃ Δ', stB.branches = L ++ (b :: Δ') := by
  obtain ⟨_, ⟨Δ2, hb2, _⟩, _, _, _⟩ := hext
  refine ⟨Δ ++ Δ2, ?_⟩
  rw [hb2, h]
  simp [List.append_assoc]

/-- The conditional case of `_collect_stmt` satisfies the statement
contract, given the contracts of its two sub-block walks. -/
theorem if_step_ok (owner : String) (test : PyExpr) (body orelse : PyBlock) (a : Attrs)
    (sn k : String) (hk : k ∈ kindStrings) (st : CollectorState)
    (hbody : AuxResultOK owner (addBranch owner k a sn none st).2 none
      (collectBlockAux owner body none [] (addBranch owner k a sn none st).2))
    (helse : AuxResultOK owner
      (collectBlockAux owner body none [] (addBranch owner k a sn none st).2).2 none
      (collectBlockAux owner orelse none []
        (collectBlockAux owner body none [] (addBranch owner k a sn none st).2).2)) :
    CollectResultOK owner st (ifStepResult owner test body orelse a sn k st) := by
  have habe := addBranch_eq owner k a sn none st
  unfold ifStepResult
  rcases hab : addBranch owner k a sn none st with ⟨condId, st1⟩
  rw [hab] at hbody helse
  dsimp only at hbody helse
  have hpair := hab.symm.trans habe
  rw [Prod.mk.injEq] at hpair
  obtain ⟨hcondId, hst1⟩ := hpair
  have hcid : hashIn condId := by
    rw [hcondId]
    exact mkBranchId_hashIn owner k _
  have hext1 : CollectExtends owner st st1 := by
    have h := @addBranch_collectExtends owner k hk a sn none st
    rwa [hab] at h
  have hst1b : st1.branches = st.branches ++ [mkBranch owner k a sn none
      (counterVal st (owner ++ "::" ++ k))] := by
    rw [hst1]
  have hBid : (mkBranch owner k a sn none (counterVal st (owner ++ "::" ++ k))).id
      = condId := by
    rw [hcondId]
    rfl
  dsimp only
  obtain ⟨⟨⟨thenEntry, thenExits⟩, st2⟩, htR⟩ :
      ∃ r, collectBlockAux owner body none [] st1 = r := ⟨_, rfl⟩
  rw [htR] at hbody helse ⊢
  dsimp only at hbody helse ⊢
  have hext2 : CollectExtends owner st1 st2 := hbody.1
  have hthenExits : AnchorsOK thenExits := hbody.2.1
  clear hbody htR
  by_cases ho : orelse.isNil
  · clear helse
    rw [if_pos ho]
    set stT := (match thenEntry with
       | some e => if knownTruthValue test ≠ some false
           then addFlow condId e "true" st2 else st2
       | none => st2) with hstT
    have hext4 : CollectExtends owner st2 stT :=
      condFlowStep_extends owner condId "true" hcid (by decide) thenEntry _ st2
    have hextAll : CollectExtends owner st stT :=
      collectExtends_trans hext1 (collectExtends_trans hext2 hext4)
    obtain ⟨Δ', hΔ'⟩ := branches_cons_extend
      (collectExtends_trans hext2 hext4) (by simpa using hst1b)
    rw [if_pos ho]
    by_cases htf : blockFallsThrough body = true
    · rw [if_pos htf]
      refine ⟨hextAll, anchorsOK_single hcid (by decide), by simp, ?_⟩
      intro e he
      rw [Option.some.injEq] at he
      exact ⟨_, Δ', hΔ', hBid.trans he⟩
    · rw [if_neg htf]
      refine ⟨hextAll, anchorsOK_single hcid (by decide), by simp, ?_⟩
      intro e he
      rw [Option.some.injEq] at he
      exact ⟨_, Δ', hΔ', hBid.trans he⟩
  · rw [if_neg ho]
    obtain ⟨⟨⟨elseEntry, elseExits⟩, st3⟩, heR⟩ :
        ∃ r, collectBlockAux owner orelse none [] st2 = r := ⟨_, rfl⟩
    rw [heR] at helse ⊢
    dsimp only at helse ⊢
    have hext3 : CollectExtends owner st2 st3 := helse.1
    have helseExits : AnchorsOK elseExits := helse.2.1
    clear helse heR
    set st4 := (match thenEntry with
       | some e => if knownTruthValue test ≠ some false
           then addFlow condId e "true" st3 else st3
       | none => st3) with hst4
    have hext4 : CollectExtends owner st3 st4 :=
      condFlowStep_extends owner condId "true" hcid (by decide) thenEntry _ st3
    set st5 := (match elseEntry with
       | some e => if knownTruthValue test ≠ some true
           then addFlow condId e "false" st4 else st4
       | none => st4) with hst5
    have hext5 : CollectExtends owner st4 st5 :=
      condFlowStep_extends owner condId "false" hcid (by decide) elseEntry _ st4
    have hchain : CollectExtends owner st1 st5 :=
      collectExtends_trans hext2 (collectExtends_trans hext3
        (collectExtends_trans hext4 hext5))
    obtain ⟨Δ', hΔ'⟩ := branches_cons_extend hchain (by simpa using hst1b)
    rw [if_neg ho]
    refine ⟨collectExtends_trans hext1 hchain, ?_, by simp, ?_⟩
    · refine anchorsOK_dedup ?_
      refine anchorsOK_append (anchorsOK_append (anchorsOK_append ?_ ?_) ?_) ?_
      · exact anchorsOK_ite hthenExits
      · exact anchorsOK_ite helseExits
      · exact anchorsOK_ite (anchorsOK_single hcid (by decide))
      · exact anchorsOK_ite
          (anchorsOK_ite2 (anchorsOK_single hcid (by decide))
            (anchorsOK_single hcid (by decide)))
    · intro e he
      rw [Option.some.injEq] at he
      exact ⟨_, Δ', hΔ', hBid.trans he⟩

mutual
theorem collectStmt_ok (owner : String) (stmt : PyStmt) (st : CollectorState) :
    CollectResultOK owner st (collectStmt owner stmt st) := by
  cases stmt with
  | functionDef n b a =>
    show CollectResultOK owner st ((none, [], true), st)
    exact ⟨collectExtends_refl owner st, anchorsOK_nil, fun _ => rfl,
      fun e he => Option.noConfusion he⟩
  | classDef n b a =>
    show CollectResultOK owner st ((none, [], true), st)
    exact ⟨collectExtends_refl owner st, anchorsOK_nil, fun _ => rfl,
      fun e he => Option.noConfusion he⟩
  | ifStmt test body orelse a =>
    rw [collectStmt_if_eq]
    have hkind : (if strStartsWith
        (lstrip (if getSnippet a = "" then "if ...:" else getSnippet a)) "elif "
       then "elif" else "if") ∈ kindStrings := by
      split <;> split <;> decide
    exact if_step_ok owner test body orelse a _ _ hkind st
      (collectBlockAux_ok owner body none [] _ anchorsOK_nil)
      (collectBlockAux_ok owner orelse none [] _ anchorsOK_nil)
  | ret v a =>
    exact branch_step_ok owner "return" (by decide) a _ none st [] false anchorsOK_nil
  | raiseStmt a =>
    exact branch_step_ok owner "raise" (by decide) a _ none st [] false anchorsOK_nil
  | exprStmt v a => exact collectCallLike_ok owner (.exprStmt v a) a st
  | assign v a => exact collectCallLike_ok owner (.assign v a) a st
  | annAssign v a => exact collectCallLike_ok owner (.annAssign v a) a st
  | augAssign v a => exact collectCallLike_ok owner (.augAssign v a) a st
  | forStmt b o a =>
    exact branch_step_ok owner "for" (by decide) a
      (if getSnippet a = "" then "for ...:" else getSnippet a) none st _ true
      (anchorsOK_single (hashIn_addBranch_fst owner "for" a
        (if getSnippet a = "" then "for ...:" else getSnippet a) none st) (by decide))
  | whileStmt t b o a =>
    exact branch_step_ok owner "while" (by decide) a
      (if getSnippet a = "" then "while ...:" else getSnippet a) none st _ true
      (anchorsOK_single (hashIn_addBranch_fst owner "while" a
        (if getSnippet a = "" then "while ...:" else getSnippet a) none st) (by decide))
  | tryStmt b h o f a =>
    exact branch_step_ok owner "try" (by decide) a "try:" none st _ true
      (anchorsOK_single (hashIn_addBranch_fst owner "try" a "try:" none st) (by decide))
  | withStmt b a =>
    exact branch_step_ok owner "with" (by decide) a
      (if getSnippet a = "" then "with ...:" else getSnippet a) none st _ true
      (anchorsOK_single (hashIn_addBranch_fst owner "with" a
        (if getSnippet a = "" then "with ...:" else getSnippet a) none st) (by decide))
  | otherStmt a =>
    show CollectResultOK owner st ((none, [], stmtFallsThrough (.otherStmt a)), st)
    exact ⟨collectExtends_refl owner st, anchorsOK_nil, fun _ => rfl,
      fun e he => Option.noConfusion he⟩
  termination_by structural stmt

theorem collectBlockAux_ok (owner : String) (ss : PyBlock) (entryId : Option String)
    (pending : List ExitAnchor) (st : CollectorState) (hpend : AnchorsOK pending) :
    AuxResultOK owner st entryId (collectBlockAux owner ss entryId pending st) := by
  cases ss with
  | nil =>
    show AuxResultOK owner st entryId ((entryId, pending), st)
    exact ⟨collectExtends_refl owner st, hpend, fun h => ⟨h, rfl⟩, fun e he => .inl he⟩
  | cons stmt rest =>
    have hstmt := collectStmt_ok owner stmt st
    obtain ⟨⟨⟨se, sx, sf⟩, st1⟩, hcs⟩ :
        ∃ r, collectStmt owner stmt st = r := ⟨_, rfl⟩
    rw [hcs] at hstmt
    simp only [collectBlockAux]
    rw [hcs]
    dsimp only
    have hext1 : CollectExtends owner st st1 := hstmt.1
    cases se with
    | some e =>
      have hsx : AnchorsOK sx := hstmt.2.1
      have hentry := hstmt.2.2.2
      have hfold : CollectExtends owner st1
          (pending.foldl (fun acc anch => addFlow anch.1 e anch.2 acc) st1) :=
        foldl_addFlow_extends owner e pending st1 hpend
      cases entryId with
      | none =>
        dsimp only
        have hrest := collectBlockAux_ok owner rest (some e) sx
          (pending.foldl (fun acc anch => addFlow anch.1 e anch.2 acc) st1) hsx
        refine ⟨collectExtends_trans hext1 (collectExtends_trans hfold hrest.1),
          hrest.2.1, ?_, ?_⟩
        · intro h
          obtain ⟨hcontra, _⟩ := hrest.2.2.1 h
          exact Option.noConfusion hcontra
        · intro e' he'
          refine .inr ⟨rfl, ?_⟩
          rcases hrest.2.2.2 e' he' with h | ⟨hcontra, _⟩
          · obtain ⟨b, Δ1, hb1, hbid⟩ := hentry e rfl
            obtain ⟨Δ', hΔ'⟩ := branches_cons_extend
              (collectExtends_trans hfold hrest.1) hb1
            injection h with he2
            exact ⟨b, Δ', hΔ', by rw [hbid, he2]⟩
          · exact Option.noConfusion hcontra
      | some x =>
        dsimp only
        have hrest := collectBlockAux_ok owner rest (some x) sx
          (pending.foldl (fun acc anch => addFlow anch.1 e anch.2 acc) st1) hsx
        refine ⟨collectExtends_trans hext1 (collectExtends_trans hfold hrest.1),
          hrest.2.1, ?_, ?_⟩
        · intro h
          obtain ⟨hcontra, _⟩ := hrest.2.2.1 h
          exact Option.noConfusion hcontra
        · intro e' he'
          rcases hrest.2.2.2 e' he' with h | ⟨hcontra, _⟩
          · exact .inl h
          · exact Option.noConfusion hcontra
    | none =>
      have hbr : st1.branches = st.branches := hstmt.2.2.1 rfl
      dsimp only
      have hp' : AnchorsOK (if sf = true then pending else []) := anchorsOK_ite hpend
      have hrest := collectBlockAux_ok owner rest entryId
        (if sf = true then pending else []) st1 hp'
      refine ⟨collectExtends_trans hext1 hrest.1, hrest.2.1, ?_, ?_⟩
      · intro h
        obtain ⟨h1, h2⟩ := hrest.2.2.1 h
        exact ⟨h1, by rw [h2, hbr]⟩
      · intro e' he'
        rcases hrest.2.2.2 e' he' with h | ⟨h1, b, Δ, hb, hbid⟩
        · exact .inl h
        · exact .inr ⟨h1, b, Δ, by rw [hb, hbr], hbid⟩
  termination_by structural ss
end

/-- `_collect_block` satisfies the statement contract. -/
theorem collectBlock_ok (owner : String) (ss : PyBlock) (st : CollectorState) :
    CollectResultOK owner st (collectBlock owner ss st) := by
  have haux := collectBlockAux_ok owner ss none [] st anchorsOK_nil
  obtain ⟨⟨⟨entry, pend⟩, st'⟩, heq⟩ :
      ∃ r, collectBlockAux owner ss none [] st = r := ⟨_, rfl⟩
  rw [heq] at haux
  unfold collectBlock
  rw [heq]
  dsimp only
  refine ⟨haux.1, haux.2.1, ?_, ?_⟩
  · intro h
    exact (haux.2.2.1 h).2
  · intro e he
    rcases haux.2.2.2 e he with h | ⟨_, hrest⟩
    · exact Option.noConfusion h
    · exact hrest

/-! ## Counting lemmas for anchors, functions and owned branches -/

theorem anchorEdges_ext_hashIn {st st' : CollectorState} {q : String} (hq : ¬ hashIn q)
    {Δ : List Flow} (hfl : st'.branchFlows = st.branchFlows ++ Δ)
    (hΔ : ∀ e ∈ Δ, hashIn e.source) : anchorEdges st' q = anchorEdges st q := by
  unfold anchorEdges
  rw [hfl, List.filter_append]
  have hnil : Δ.filter (fun e => e.source = anchorOf q) = [] := by
    rw [List.filter_eq_nil]
    intro e he
    simpa using hashIn_ne_anchor (hΔ e he) hq
  rw [hnil, List.append_nil]

theorem anchorEdges_flows_mono {st st' : CollectorState} {Δ : List Flow}
    (hfl : st'.branchFlows = st.branchFlows ++ Δ) (q : String) :
    (anchorEdges st q).length ≤ (anchorEdges st' q).length := by
  unfold anchorEdges
  rw [hfl, List.filter_append, List.length_append]
  omega

theorem anchorEdges_addFlow_le (s t f q : String) (st : CollectorState) :
    (anchorEdges (addFlow s t f st) q).length ≤ (anchorEdges st q).length + 1 := by
  unfold anchorEdges
  rcases addFlow_flows s t f st with h | h <;> rw [h]
  · omega
  · rw [List.filter_append, List.length_append]
    have : (([⟨s, t, f⟩] : List Flow).filter (fun e => e.source = anchorOf q)).length ≤ 1 := by
      simp only [List.filter]
      split <;> simp
    omega

theorem anchorEdges_addFlow_other {s q : String} (hne : s ≠ anchorOf q)
    (t f : String) (st : CollectorState) :
    anchorEdges (addFlow s t f st) q = anchorEdges st q := by
  unfold anchorEdges
  rcases addFlow_flows s t f st with h | h <;> rw [h]
  rw [List.filter_append]
  have hnil : (([⟨s, t, f⟩] : List Flow).filter (fun e => e.source = anchorOf q)) = [] := by
    simp [hne]
  rw [hnil, List.append_nil]

theorem fnCount_append {st st' : CollectorState} {f : FunctionRec}
    (h : st'.functions = st.functions ++ [f]) (q : String) :
    fnCount st' q = fnCount st q + (if f.qualifiedName = q then 1 else 0) := by
  unfold fnCount
  rw [h, List.filter_append, List.length_append]
  congr 1
  by_cases hf : f.qualifiedName = q
  · simp [hf]
  · simp [hf]

theorem fnCount_eq_of {st st' : CollectorState} (h : st'.functions = st.functions)
    (q : String) : fnCount st' q = fnCount st q := by
  unfold fnCount
  rw [h]

theorem fnCount_mono {st st' : CollectorState} {Δ : List FunctionRec}
    (h : st'.functions = st.functions ++ Δ) (q : String) :
    fnCount st q ≤ fnCount st' q := by
  unfold fnCount
  rw [h, List.filter_append, List.length_append]
  omega

theorem fnCount_pos_of_mem {st : CollectorState} {fn : FunctionRec}
    (h : fn ∈ st.functions) : 1 ≤ fnCount st fn.qualifiedName := by
  unfold fnCount
  have : fn ∈ st.functions.filter (fun f => f.qualifiedName = fn.qualifiedName) := by
    rw [List.mem_filter]
    exact ⟨h, by simp⟩
  exact List.length_pos.mpr (List.ne_nil_of_mem this)

theorem ownedBranches_append {st st' : CollectorState} {Δ : List Branch}
    (h : st'.branches = st.branches ++ Δ) (q : String) :
    ownedBranches st' q = ownedBranches st q ++ Δ.filter (fun b => b.owner = q) := by
  unfold ownedBranches
  rw [h, List.filter_append]

theorem filter_owner_nil {owner q : String} (hne : q ≠ owner) {Δ : List Branch}
    (hΔ : ∀ b ∈ Δ, b.owner = owner) : Δ.filter (fun b => b.owner = q) = [] := by
  rw [List.filter_eq_nil]
  intro b hb
  rw [hΔ b hb]
  simpa using fun hqo => hne hqo.symm

theorem owned_nil_of_fnCount_zero {st : CollectorState} (hown : OwnedInv st)
    {q : String} (h : fnCount st q = 0) : ownedBranches st q = [] := by
  unfold ownedBranches
  rw [List.filter_eq_nil]
  intro b hb
  intro hbq
  obtain ⟨fn, hfn, hq⟩ := hown b hb
  have hbq' : b.owner = q := by simpa using hbq
  have hfnq : fn.qualifiedName = q := by rw [← hq, hbq']
  have hpos := fnCount_pos_of_mem hfn
  rw [hfnq] at hpos
  omega

theorem anchorEdges_pos_of_mem {st : CollectorState} {e : Flow} {q : String}
    (he : e ∈ st.branchFlows) (hsrc : e.source = anchorOf q) :
    1 ≤ (anchorEdges st q).length := by
  unfold anchorEdges
  have : e ∈ st.branchFlows.filter (fun e => e.source = anchorOf q) := by
    rw [List.mem_filter]
    exact ⟨he, by simpa using hsrc⟩
  exact List.length_pos.mpr (List.ne_nil_of_mem this)

theorem head?_append_left {α : Type} {l l' : List α} (h : l ≠ []) :
    (l ++ l').head? = l.head? := by
  cases l
  · exact absurd rfl h
  · rfl

theorem visitExtends_refl (st : CollectorState) : VisitExtends st st :=
  ⟨⟨[], by simp⟩, ⟨[], by simp⟩, ⟨[], by simp⟩, fun _ => le_refl _, id⟩

theorem visitExtends_trans {st1 st2 st3 : CollectorState} (h1 : VisitExtends st1 st2)
    (h2 : VisitExtends st2 st3) : VisitExtends st1 st3 := by
  obtain ⟨⟨Δ1, hf1⟩, ⟨Δ2, hb1⟩, ⟨Δ3, hl1⟩, hc1, hg1⟩ := h1
  obtain ⟨⟨Δ4, hf2⟩, ⟨Δ5, hb2⟩, ⟨Δ6, hl2⟩, hc2, hg2⟩ := h2
  exact ⟨⟨Δ1 ++ Δ4, by rw [hf2, hf1, List.append_assoc]⟩,
    ⟨Δ2 ++ Δ5, by rw [hb2, hb1, List.append_assoc]⟩,
    ⟨Δ3 ++ Δ6, by rw [hl2, hl1, List.append_assoc]⟩,
    fun k => le_trans (hc1 k) (hc2 k), fun h => hg2 (hg1 h)⟩

/-- The `visit_FunctionDef` graph step — append the function record, build
the body's graph, and add the scope-entry anchor edge — preserves the run
invariant and only extends the state. -/
theorem functionDef_pre_ok {q0 : String} (f : FunctionRec) (hfq : f.qualifiedName = q0)
    (st : CollectorState)
    (res : (Option String × List ExitAnchor × Bool) × CollectorState)
    (hcr : CollectResultOK q0 { st with functions := st.functions ++ [f] } res) :
    VisitExtends st
      (match res.1.1 with
       | some en => addFlow ("owner::" ++ q0) en "next" res.2
       | none => res.2) := by
  obtain ⟨hext, hanch, hnone, hsome⟩ := hcr
  obtain ⟨hfunEq, ⟨Δb, hΔb, hΔbP⟩, ⟨Δf, hΔf, hΔfP⟩, hcnt, hsinv⟩ := hext
  have hfunEq' : res.2.functions = st.functions ++ [f] := hfunEq
  have hΔb' : res.2.branches = st.branches ++ Δb := hΔb
  have hΔf' : res.2.branchFlows = st.branchFlows ++ Δf := hΔf
  have hΔfP' : ∀ e ∈ Δf, hashIn e.source := fun e he => (hΔfP e he).1
  have hcnt' : ∀ key, counterVal st key ≤ counterVal res.2 key := hcnt
  have hOwn2 : OwnedInv st → OwnedInv res.2 := by
    intro hOwn b hb
    rw [hΔb'] at hb
    rcases List.mem_append.mp hb with h | h
    · obtain ⟨fn, hfn, hq⟩ := hOwn b h
      exact ⟨fn, by rw [hfunEq']; exact List.mem_append_left _ hfn, hq⟩
    · exact ⟨f, by rw [hfunEq']; simp, by rw [(hΔbP b h).1, hfq]⟩
  obtain ⟨o, ho⟩ : ∃ o, res.1.1 = o := ⟨_, rfl⟩
  rw [ho]
  cases o with
  | none =>
    have hΔbnil : Δb = [] := by
      have h := hnone ho
      rw [hΔb'] at h
      have h2 : st.branches ++ Δb = st.branches ++ [] := by simpa using h
      exact List.append_cancel_left h2
    dsimp only
    refine ⟨⟨[f], hfunEq'⟩, ⟨Δb, hΔb'⟩, ⟨Δf, hΔf'⟩, hcnt', ?_⟩
    intro hG
    obtain ⟨hS, hOwn, hUp, hLow, hForm⟩ := hG
    have hS1 : SInv { st with functions := st.functions ++ [f] } := hS
    refine ⟨hsinv hS1, hOwn2 hOwn, ?_, ?_, ?_⟩
    · intro q hq
      rw [anchorEdges_ext_hashIn hq hΔf' hΔfP']
      exact le_trans (hUp q hq) (fnCount_mono hfunEq' q)
    · intro q hq howned
      rw [ownedBranches_append hΔb' q, hΔbnil] at howned
      simp only [List.filter_nil, List.append_nil] at howned
      rw [anchorEdges_ext_hashIn hq hΔf' hΔfP']
      exact hLow q hq howned
    · intro q hq e he hsrc
      rw [hΔf'] at he
      rcases List.mem_append.mp he with h | h
      · obtain ⟨hft, htgt⟩ := hForm q hq e h hsrc
        refine ⟨hft, ?_⟩
        intro hfc
        have hfcst : fnCount st q ≤ 1 :=
          le_trans (fnCount_mono hfunEq' q) hfc
        rw [ownedBranches_append hΔb' q, hΔbnil]
        simpa using htgt hfcst
      · exact absurd hsrc (by simpa using hashIn_ne_anchor (hΔfP' e h) hq)
  | some en =>
    dsimp only
    have hΔbcons : ∃ b Δ, Δb = b :: Δ ∧ b.id = en := by
      obtain ⟨b, Δ, hb, hbid⟩ := hsome en ho
      rw [hΔb'] at hb
      have h2 : st.branches ++ Δb = st.branches ++ (b :: Δ) := by simpa using hb
      exact ⟨b, Δ, List.append_cancel_left h2, hbid⟩
    have hfeq3 : (addFlow ("owner::" ++ q0) en "next" res.2).functions
        = st.functions ++ [f] := by
      rw [addFlow_functions, hfunEq']
    have hbeq3 : (addFlow ("owner::" ++ q0) en "next" res.2).branches
        = st.branches ++ Δb := by
      rw [addFlow_branches, hΔb']
    refine ⟨⟨[f], hfeq3⟩, ⟨Δb, hbeq3⟩, ?_, ?_, ?_⟩
    · rcases addFlow_flows ("owner::" ++ q0) en "next" res.2 with h | h
      · exact ⟨Δf, by rw [h, hΔf']⟩
      · exact ⟨Δf ++ [⟨"owner::" ++ q0, en, "next"⟩],
          by rw [h, hΔf', List.append_assoc]⟩
    · intro key
      rw [addFlow_counterVal]
      exact hcnt' key
    · intro hG
      obtain ⟨hS, hOwn, hUp, hLow, hForm⟩ := hG
      have hS1 : SInv { st with functions := st.functions ++ [f] } := hS
      have hS2 : SInv res.2 := hsinv hS1
      have hS3 : SInv (addFlow ("owner::" ++ q0) en "next" res.2) :=
        addFlow_sinv hS2 (by decide) _ _
      have hOwn3 : OwnedInv (addFlow ("owner::" ++ q0) en "next" res.2) := by
        intro b hb
        rw [addFlow_branches] at hb
        obtain ⟨fn, hfn, hq⟩ := hOwn2 hOwn b hb
        exact ⟨fn, by rw [addFlow_functions]; exact hfn, hq⟩
      have hmem : (⟨"owner::" ++ q0, en, "next"⟩ : Flow) ∈
          (addFlow ("owner::" ++ q0) en "next" res.2).branchFlows :=
        addFlow_mem hS2.1 _ _ _
      have howned3 : ∀ q, ownedBranches (addFlow ("owner::" ++ q0) en "next" res.2) q
          = ownedBranches st q ++ Δb.filter (fun b => b.owner = q) :=
        fun q => ownedBranches_append hbeq3 q
      refine ⟨hS3, hOwn3, ?_, ?_, ?_⟩
      · intro q hq
        have hfc3 := fnCount_append hfeq3 q
        by_cases hqq : q = q0
        · subst hqq
          have h2 : anchorEdges res.2 q = anchorEdges st q :=
            anchorEdges_ext_hashIn hq hΔf' hΔfP'
          have h3 := anchorEdges_addFlow_le ("owner::" ++ q) en "next" q res.2
          rw [h2] at h3
          have h4 := hUp q hq
          rw [hfc3, if_pos (hfq.trans rfl)]
          omega
        · have hne : ("owner::" ++ q0) ≠ anchorOf q := fun hcontra =>
            hqq (anchorOf_inj hcontra).symm
          rw [anchorEdges_addFlow_other hne en "next" res.2,
            anchorEdges_ext_hashIn hq hΔf' hΔfP', hfc3]
          have h4 := hUp q hq
          omega
      · intro q hq howned
        rw [howned3 q] at howned
        by_cases hbase : ownedBranches st q = []
        · rw [hbase, List.nil_append] at howned
          obtain ⟨b, hbmem⟩ := List.exists_mem_of_ne_nil _ howned
          have hbf := List.mem_filter.mp hbmem
          have hbq : b.owner = q := by simpa using hbf.2
          have hbo : b.owner = q0 := (hΔbP b hbf.1).1
          have hq0q : q = q0 := by rw [← hbq, hbo]
          subst hq0q
          exact anchorEdges_pos_of_mem hmem rfl
        · have h1 := hLow q hq hbase
          have h2 : anchorEdges res.2 q = anchorEdges st q :=
            anchorEdges_ext_hashIn hq hΔf' hΔfP'
          have h4 : (anchorEdges res.2 q).length ≤
              (anchorEdges (addFlow ("owner::" ++ q0) en "next" res.2) q).length := by
            rcases addFlow_flows ("owner::" ++ q0) en "next" res.2 with h | h
            · exact anchorEdges_flows_mono (by rw [h, List.append_nil]) q
            · exact anchorEdges_flows_mono h q
          rw [h2] at h4
          omega
      · intro q hq e he hsrc
        have hfc3 := fnCount_append hfeq3 q
        have holdForm : e ∈ res.2.branchFlows →
            e.flowType = "next" ∧
            (fnCount (addFlow ("owner::" ++ q0) en "next" res.2) q ≤ 1 →
              (ownedBranches (addFlow ("owner::" ++ q0) en "next" res.2) q).head?.map
                (fun b => b.id) = some e.target) := by
          intro hin
          rw [hΔf'] at hin
          rcases List.mem_append.mp hin with h | h
          · obtain ⟨hft, htgt⟩ := hForm q hq e h hsrc
            refine ⟨hft, ?_⟩
            intro hfc
            have hfcst : fnCount st q ≤ 1 := by
              rw [hfc3] at hfc
              omega
            have htg := htgt hfcst
            have hbne : ownedBranches st q ≠ [] := by
              intro hnil
              rw [hnil] at htg
              simp at htg
            rw [howned3 q, head?_append_left hbne]
            exact htg
          · exact absurd hsrc (by simpa using hashIn_ne_anchor (hΔfP' e h) hq)
        rcases addFlow_flows ("owner::" ++ q0) en "next" res.2 with hfl | hfl
        · rw [hfl] at he
          exact holdForm he
        · rw [hfl] at he
          rcases List.mem_append.mp he with h | h
          · exact holdForm h
          · have heq : e = ⟨"owner::" ++ q0, en, "next"⟩ := by simpa using h
            subst heq
            have hq0q : q0 = q := anchorOf_inj hsrc
            subst hq0q
            refine ⟨rfl, ?_⟩
            intro hfc
            have hfcst : fnCount st q0 = 0 := by
              rw [hfc3, if_pos (hfq.trans rfl)] at hfc
              omega
            have hnil : ownedBranches st q0 = [] :=
              owned_nil_of_fnCount_zero hOwn hfcst
            rw [howned3 q0, hnil, List.nil_append]
            obtain ⟨b, Δ, hΔbeq, hbid⟩ := hΔbcons
            have hbo : b.owner = q0 := (hΔbP b (by rw [hΔbeq]; simp)).1
            rw [hΔbeq]
            simp only [List.filter_cons, hbo]
            simp [hbid]

/-! ## Evaluation of the concrete runs, staged through literal states -/

theorem collectC1_eq :
    collectBlock "f" bodyC1 stC1a =
      ((some "f::if#0", [("f::call#0", "next")], true), stC1b) := rfl

theorem runC1_eq : runCollector modC1 = stC1c := by
  show visitBlock "module" modC1 initialState = stC1c
  rw [modC1, visitBlock_cons, visitBlock_nil, visitStmt_functionDef]
  simp only [initialState, attrsOf, List.nil_append, ne_eq]
  norm_num
  rw [show (⟨[⟨"f", "f", 1, 4⟩], [], [], [], []⟩ : CollectorState) = stC1a from rfl,
    collectC1_eq]
  rfl

theorem collectC6_eq :
    collectBlock "f" bodyC6 stC6a =
      ((some "f::if#0", [("f::if#0", "next")], true), stC6b) := rfl

theorem runC6_eq : runCollector modC6 = stC6c := by
  show visitBlock "module" modC6 initialState = stC6c
  rw [modC6, visitBlock_cons, visitBlock_nil, visitStmt_functionDef]
  simp only [initialState, attrsOf, List.nil_append, ne_eq]
  norm_num
  rw [show (⟨[⟨"f", "f", 1, 3⟩], [], [], [], []⟩ : CollectorState) = stC6a from rfl,
    collectC6_eq]
  rfl

/-- Final collector state of the duplicate-name run. -/
theorem runDup_eq :
    runCollector modDup =
      ⟨[⟨"f", "f", 1, 2⟩, ⟨"f", "f", 4, 5⟩],
       [⟨"f::call#0", "call", "f", 0, 2, 2, "y()", some "y"⟩,
        ⟨"f::call#1", "call", "f", 1, 2, 2, "y()", some "y"⟩],
       [⟨"owner::f", "f::call#0", "next"⟩, ⟨"owner::f", "f::call#1", "next"⟩],
       [("f::call", 2), ("f::call", 1)],
       [("owner::f", "f::call#1", "next"), ("owner::f", "f::call#0", "next")]⟩ := rfl

/-- Final collector state of the one-call run. -/
theorem runOneCall_eq :
    runCollector modOneCall =
      ⟨[⟨"f", "f", 1, 2⟩],
       [⟨"f::call#0", "call", "f", 0, 2, 2, "y()", some "y"⟩],
       [⟨"owner::f", "f::call#0", "next"⟩],
       [("f::call", 1)],
       [("owner::f", "f::call#0", "next")]⟩ := rfl

/-! ## The visitor preserves the run invariant -/

mutual
/-- Every visitor step on a statement only extends the state and preserves
the run invariant. -/
theorem visitStmt_ok (scope : String) (s : PyStmt) (st : CollectorState) :
    VisitExtends st (visitStmt scope s st) := by
  cases s with
  | functionDef name body a =>
    rw [visitStmt_functionDef]
    exact visitExtends_trans
      (functionDef_pre_ok
        ⟨name, (if scope ≠ "module" then scope ++ "." ++ name else name),
          a.lineno, a.endLineno⟩ rfl st _ (collectBlock_ok _ body _))
      (visitBlock_ok _ body _)
  | classDef name body a => exact visitBlock_ok name body st
  | ifStmt t body orelse a =>
    exact visitExtends_trans (visitBlock_ok scope body st)
      (visitBlock_ok scope orelse _)
  | ret v a => exact visitExtends_refl st
  | raiseStmt a => exact visitExtends_refl st
  | exprStmt v a => exact visitExtends_refl st
  | assign v a => exact visitExtends_refl st
  | annAssign v a => exact visitExtends_refl st
  | augAssign v a => exact visitExtends_refl st
  | forStmt body orelse a =>
    exact visitExtends_trans (visitBlock_ok scope body st)
      (visitBlock_ok scope orelse _)
  | whileStmt t body orelse a =>
    exact visitExtends_trans (visitBlock_ok scope body st)
      (visitBlock_ok scope orelse _)
  | tryStmt body handlers orelse finalbody a =>
    exact visitExtends_trans (visitBlock_ok scope body st)
      (visitExtends_trans (visitBlocks_ok scope handlers _)
        (visitExtends_trans (visitBlock_ok scope orelse _)
          (visitBlock_ok scope finalbody _)))
  | withStmt body a => exact visitBlock_ok scope body st
  | otherStmt a => exact visitExtends_refl st
  termination_by structural s

/-- Visiting a block only extends the state and preserves the invariant. -/
theorem visitBlock_ok (scope : String) (b : PyBlock) (st : CollectorState) :
    VisitExtends st (visitBlock scope b st) := by
  cases b with
  | nil => exact visitExtends_refl st
  | cons s rest =>
    exact visitExtends_trans (visitStmt_ok scope s st)
      (visitBlock_ok scope rest _)
  termination_by structural b

/-- Visiting a handler list only extends the state and preserves the
invariant. -/
theorem visitBlocks_ok (scope : String) (bs : PyBlocks) (st : CollectorState) :
    VisitExtends st (visitBlocks scope bs st) := by
  cases bs with
  | nil => exact visitExtends_refl st
  | cons b rest =>
    exact visitExtends_trans (visitBlock_ok scope b st)
      (visitBlocks_ok scope rest _)
  termination_by structural bs
end

/-- The fresh collector satisfies the run invariant. -/
theorem ginv_initial : GInv initialState := by
  refine ⟨⟨⟨rfl, List.Pairwise.nil⟩, ?_, ?_, List.Pairwise.nil, ?_⟩, ?_, ?_, ?_, ?_⟩
  · intro b hb
    exact absurd hb (List.not_mem_nil b)
  · intro b hb
    exact absurd hb (List.not_mem_nil b)
  · intro e he
    exact absurd he (List.not_mem_nil e)
  · intro b hb
    exact absurd hb (List.not_mem_nil b)
  · intro q hq
    exact Nat.le_refl 0
  · intro q hq hne
    exact absurd rfl hne
  · intro q hq e he
    exact absurd he (List.not_mem_nil e)

/-- The final state of every analysis run satisfies the run invariant. -/
theorem ginv_run (m : PyBlock) : GInv (runCollector m) :=
  (visitBlock_ok "module" m initialState).2.2.2.2 ginv_initial

/-! ## Claims -/

/-- **C1**: for the function body `if x: return` followed by `y()`, the
builder produces exactly the branches `if#0`, `return#0` and `call#0`
(callee `y`), and emits the edge `(if#0, call#0, "false")`: the no-else
conditional whose then-block does not fall through exposes the single exit
anchor `(conditionalId, false)`, which the block walk connects to the next
statement's entry branch. -/
theorem C1_guard_clause_graph :
    (runCollector modC1).branches.map (fun b => (b.id, b.kind, b.callee)) =
      [("f::if#0", "if", none), ("f::return#0", "return", none),
       ("f::call#0", "call", some "y")] ∧
    (⟨"f::if#0", "f::call#0", "false"⟩ : Flow) ∈ (runCollector modC1).branchFlows := by
  rw [runC1_eq]
  exact ⟨rfl, by simp [stC1c]⟩

/-- **C6**: for the function body `if False: a()`, the output contains both
the `if` branch and the `a` call branch, but no `true`-labeled edge from
the `if` branch to the call branch: the statically false condition
suppresses the then-edge. -/
theorem C6_dead_branch_suppression :
    (runCollector modC6).branches.map (fun b => (b.id, b.kind, b.callee)) =
      [("f::if#0", "if", none), ("f::call#0", "call", some "a")] ∧
    (⟨"f::if#0", "f::call#0", "true"⟩ : Flow) ∉ (runCollector modC6).branchFlows := by
  rw [runC6_eq]
  exact ⟨rfl, by simp [stC6c, brIfC6, brCallC6]⟩

/-- **C3, counterexample**: `not (not True)` needs two negation steps, yet
the oracle resolves it to `true` (the negation case recurses), refuting
"for every expression whose resolution would require more than one negation
step, the result is unknown". -/
theorem C3_counterexample :
    knownTruthValue (.unaryNot (.unaryNot (.constBool true))) = some true ∧
    knownTruthValue (.unaryNot (.unaryNot (.constBool true))) ≠ none := by
  exact ⟨rfl, by simp [knownTruthValue]⟩

/-- **C3, amended**: the oracle resolves literal booleans to themselves,
the literal `None` constant to `false`, and a negation recursively from the
inner result — so arbitrarily nested negations of literals resolve — and
resolves every other expression shape to unknown. -/
theorem C3_known_truth_characterisation (e : PyExpr) : SpecTruth e (knownTruthValue e) := by
  induction e with
  | constBool b => exact .boolLit b
  | constNone => exact .noneLit
  | unaryNot operand ih =>
    cases h : knownTruthValue operand with
    | none =>
      have : knownTruthValue (.unaryNot operand) = none := by
        simp [knownTruthValue, h]
      rw [this]
      exact .notUnknown (h ▸ ih)
    | some b =>
      have : knownTruthValue (.unaryNot operand) = some !b := by
        simp [knownTruthValue, h]
      rw [this]
      exact .notKnown (h ▸ ih)
  | constOther => exact .otherShape trivial
  | name id => exact .otherShape trivial
  | «attribute» attr => exact .otherShape trivial
  | unaryOther operand ih => exact .otherShape trivial
  | call func ih => exact .otherShape trivial
  | await_ value ih => exact .otherShape trivial
  | other => exact .otherShape trivial

/-- **C4, counterexample**: an `if` with no else whose then-block is a bare
`return` (which does not fall through) nevertheless falls through under
`_stmt_falls_through`, because the absent else branch defaults to falling
through — refuting "an if with no else whose then-block does not fall
through does not fall through". -/
theorem C4_counterexample :
    stmtFallsThrough
      (.ifStmt (.name "x") (.cons (.ret none ⟨2, 2, none⟩) .nil) .nil ⟨1, 2, none⟩)
      = true := rfl

/-- **C4, amended**: an `if` falls through iff its then-branch falls
through, or an else branch is present and falls through, or no else branch
is present (the absent else counts as an open path, so every no-else `if`
falls through). -/
theorem C4_if_falls_through (test : PyExpr) (body orelse : PyBlock) (a : Attrs) :
    stmtFallsThrough (.ifStmt test body orelse a) = true ↔
      blockFallsThrough body = true ∨
      (orelse ≠ .nil ∧ blockFallsThrough orelse = true) ∨
      orelse = .nil := by
  cases orelse with
  | nil => simp [stmtFallsThrough, PyBlock.isNil]
  | cons s rest =>
    simp [stmtFallsThrough, PyBlock.isNil, Bool.or_eq_true]

/-- **C2, counterexample**: a valid JSON object payload without a
`"content"` field is not fatal: the content defaults to the empty string,
the parser accepts the empty source (as `ast.parse("")` does), and the run
prints an output object and exits 0 — refuting "the run is fatal, reported
as an error, and no output JSON object is produced". -/
theorem C2_counterexample :
    mainRun parseEmptyOnly (some ⟨none⟩) = .ok ⟨[], [], []⟩ ∧
    stdoutOf (mainRun parseEmptyOnly (some ⟨none⟩)) = some ⟨[], [], []⟩ ∧
    exitCodeOf (mainRun parseEmptyOnly (some ⟨none⟩)) = 0 :=
  ⟨rfl, rfl, rfl⟩

/-- **C2, amended**: when the payload is a valid JSON object without a
`"content"` field, the source defaults to the empty string; with any parser
that accepts the empty source (as the real one does), the run succeeds,
printing the analysis of the parsed empty module and exiting 0. -/
theorem C2_missing_content_not_fatal (parse : String → Option PyBlock) (m : PyBlock)
    (p : Payload) (hparse : parse "" = some m) (hcontent : p.content = none) :
    mainRun parse (some p) =
      .ok ⟨(runCollector m).functions, (runCollector m).branches,
           (runCollector m).branchFlows⟩ ∧
    exitCodeOf (mainRun parse (some p)) = 0 := by
  simp [mainRun, hcontent, hparse, exitCodeOf]

/-- Witness for C2's amended theorem at a concrete parser and payload. -/
theorem C2_missing_content_not_fatal_witness :
    mainRun parseEmptyOnly (some ⟨none⟩) =
      .ok ⟨(runCollector .nil).functions, (runCollector .nil).branches,
           (runCollector .nil).branchFlows⟩ ∧
    exitCodeOf (mainRun parseEmptyOnly (some ⟨none⟩)) = 0 :=
  C2_missing_content_not_fatal parseEmptyOnly .nil ⟨none⟩ rfl rfl

/-- **C9**: when the source text fails to parse, the run terminates with a
non-zero status and writes nothing to standard output: the exception is
raised before the output statement runs. -/
theorem C9_parse_failure_atomic (parse : String → Option PyBlock) (p : Payload)
    (src : String) (hcontent : p.content = some src) (hparse : parse src = none) :
    exitCodeOf (mainRun parse (some p)) ≠ 0 ∧
    stdoutOf (mainRun parse (some p)) = none := by
  simp [mainRun, hcontent, hparse, exitCodeOf, stdoutOf]

/-- Witness for C9 at a concrete failing parser and payload. -/
theorem C9_parse_failure_atomic_witness :
    exitCodeOf (mainRun (fun _ => none) (some ⟨some "def f(:"⟩)) ≠ 0 ∧
    stdoutOf (mainRun (fun _ => none) (some ⟨some "def f(:"⟩)) = none :=
  C9_parse_failure_atomic (fun _ => none) ⟨some "def f(:"⟩ "def f(:" rfl rfl

/-- **C5, counterexample**: in a module with two top-level functions both
named `f` (each with body `y()`, so each body produces a branch), two
distinct flow edges have the shared anchor `owner::f` as their source —
refuting "exactly one emitted Flow edge has source equal to the synthetic
anchor for that function". -/
theorem C5_counterexample :
    (⟨"f", "f", 1, 2⟩ : FunctionRec) ∈ (runCollector modDup).functions ∧
    (runCollector modDup).branches.any (fun b => b.owner = "f") = true ∧
    ((runCollector modDup).branchFlows.filter
      (fun e => e.source = "owner::" ++ "f")).length = 2 := by
  rw [runDup_eq]
  refine ⟨by simp, rfl, rfl⟩

/-- **C7**: in every analysis run the `id` values of all generated Branch
records are pairwise distinct: the per-`(owner, kind)` counter makes the
`(owner, kind, idx)` triples distinct, and the `owner::kind#idx` rendering
is injective on them. -/
theorem C7_branch_ids_unique (m : PyBlock) :
    (runCollector m).branches.Pairwise (fun a b => a.id ≠ b.id) := by
  obtain ⟨⟨hK, hWF, hIdx, hDist, hFT⟩, _⟩ := ginv_run m
  refine hDist.imp_of_mem ?_
  intro a b ha hb hR hid
  obtain ⟨hka, hia⟩ := hWF a ha
  obtain ⟨hkb, hib⟩ := hWF b hb
  rw [hia, hib] at hid
  exact hR (mkBranchId_inj hka hkb hid)

/-- **C8**: in every analysis run the `(source, target, flowType)` triples
of all generated Flow records are pairwise distinct: `_add_flow` drops any
edge whose key is already in the running dedup set, which mirrors the
emitted list. -/
theorem C8_flow_triples_unique (m : PyBlock) :
    (runCollector m).branchFlows.Pairwise
      (fun a b => ¬(a.source = b.source ∧ a.target = b.target ∧
        a.flowType = b.flowType)) := by
  obtain ⟨⟨⟨hmirror, hnodup⟩, _⟩, _⟩ := ginv_run m
  rw [hmirror, List.nodup_reverse] at hnodup
  have h2 : ((runCollector m).branchFlows.map flowKey).Pairwise (· ≠ ·) := hnodup
  rw [List.pairwise_map] at h2
  refine h2.imp ?_
  intro a b hne h
  apply hne
  show (a.source, a.target, a.flowType) = (b.source, b.target, b.flowType)
  rw [h.1, h.2.1, h.2.2]

/-- **C10**: every Flow edge emitted in any run is labeled `next`, `true`
or `false`; no `dead`-labeled edge is ever emitted — unreachable branches
are modeled only by omitting edges. -/
theorem C10_flow_types (m : PyBlock) (e : Flow)
    (he : e ∈ (runCollector m).branchFlows) :
    e.flowType = "next" ∨ e.flowType = "true" ∨ e.flowType = "false" := by
  obtain ⟨⟨hK, hWF, hIdx, hDist, hFT⟩, _⟩ := ginv_run m
  have h := hFT e he
  simpa [flowTypeStrings] using h

/-- Witness for C10: the anchor edge of the one-call module is labeled with
one of the three flow types. -/
theorem C10_flow_types_witness :
    (⟨"owner::f", "f::call#0", "next"⟩ : Flow).flowType = "next" ∨
    (⟨"owner::f", "f::call#0", "next"⟩ : Flow).flowType = "true" ∨
    (⟨"owner::f", "f::call#0", "next"⟩ : Flow).flowType = "false" :=
  C10_flow_types modOneCall ⟨"owner::f", "f::call#0", "next"⟩
    (by rw [runOneCall_eq]; exact List.mem_singleton.mpr rfl)

/-- **C5** (corrected): for a visited function whose qualified name is
`#`-free and not shared by another function in the run — the function's
own record is the only one in the inventory carrying that qualified name
(`fnCount = 1`) — if its body produced at least one branch then exactly
one emitted edge leaves the synthetic anchor `owner::<qualifiedName>`,
that edge is labeled `next` and targets the function's first (entry)
branch; if the body produced no branch, no anchor edge exists.  Other
functions of the run may freely share names among themselves.  (Without
the no-sharing hypothesis this fails: see the duplicate-name
counterexample.) -/
theorem C5_anchor_unique (m : PyBlock) (f : FunctionRec)
    (hf : f ∈ (runCollector m).functions)
    (hclean : ¬ hashIn f.qualifiedName)
    (hsolo : fnCount (runCollector m) f.qualifiedName = 1) :
    (ownedBranches (runCollector m) f.qualifiedName ≠ [] →
      (anchorEdges (runCollector m) f.qualifiedName).length = 1 ∧
      ∀ e ∈ anchorEdges (runCollector m) f.qualifiedName,
        e.flowType = "next" ∧
        (ownedBranches (runCollector m) f.qualifiedName).head?.map (fun b => b.id)
          = some e.target) ∧
    (ownedBranches (runCollector m) f.qualifiedName = [] →
      anchorEdges (runCollector m) f.qualifiedName = []) := by
  obtain ⟨hS, hOwn, hUp, hLow, hForm⟩ := ginv_run m
  have hle : fnCount (runCollector m) f.qualifiedName ≤ 1 := Nat.le_of_eq hsolo
  constructor
  · intro hne
    constructor
    · have h1 := hLow f.qualifiedName hclean hne
      have h2 := hUp f.qualifiedName hclean
      omega
    · intro e he
      rw [anchorEdges] at he
      have hmem : e ∈ (runCollector m).branchFlows := (List.mem_filter.mp he).1
      have hsrc : e.source = anchorOf f.qualifiedName := by
        have h := (List.mem_filter.mp he).2
        simpa using h
      have h := hForm f.qualifiedName hclean e hmem hsrc
      exact ⟨h.1, h.2 hle⟩
  · intro hnil
    by_contra hne
    obtain ⟨e, he⟩ := List.exists_mem_of_ne_nil _ hne
    rw [anchorEdges] at he
    have hmem : e ∈ (runCollector m).branchFlows := (List.mem_filter.mp he).1
    have hsrc : e.source = anchorOf f.qualifiedName := by
      have h := (List.mem_filter.mp he).2
      simpa using h
    have hform := hForm f.qualifiedName hclean e hmem hsrc
    have h := hform.2 hle
    rw [hnil] at h
    simp at h

/-- Witness for C5: in the one-call module the function `f` owns a branch
and gets exactly one anchor edge. -/
theorem C5_anchor_unique_witness :
    (anchorEdges (runCollector modOneCall) "f").length = 1 := by
  have h := C5_anchor_unique modOneCall ⟨"f", "f", 1, 2⟩
    (by rw [runOneCall_eq]; exact List.mem_singleton.mpr rfl)
    (by decide)
    (by rw [runOneCall_eq]; rfl)
  have hown : ownedBranches (runCollector modOneCall) "f"
      = [⟨"f::call#0", "call", "f", 0, 2, 2, "y()", some "y"⟩] := by
    rw [runOneCall_eq]
    rfl
  exact (h.1 (by rw [hown]; exact List.cons_ne_nil _ _)).1

end AnalyzePython
